import Mathlib

/-!
Verification of `nautilus_trader/common/msgbus.pyx` (message bus).

The development shallowly embeds the message bus: the wildcard matcher
`is_matching` (source lines 586-613) as the same bottom-up dynamic
program computed row by row, and the `MessageBus` class as explicit
state passing over association lists that model Python dicts (which
preserve insertion order).  Handlers are opaque identifiers; invoking a
handler is recorded as an event in the returned event list.
-/

namespace Msgbus

/-! ## The wildcard matcher (source lines 586-613)

The source fills a table `t` of size `(n+1) x (m+1)` with
`t[0][0] = True`, `t[0][j] = t[0][j-1]` when `pattern[j-1] == '*'`
(else `False`), and for `i, j >= 1`:
`t[i][j] = t[i-1][j] or t[i][j-1]` when `pattern[j-1] == '*'`,
`t[i][j] = t[i-1][j-1]` when `pattern[j-1] == '?'` or
`topic[i-1] == pattern[j-1]`, else `False`.  The embedding computes the
table row by row (each row only reads the previous row and the cell to
its left, exactly the dependencies of the source's loops). -/

/-- Cells `t[0][j]` for `j = 1..m` of the first row, given the cell to
the left: `t[0][j] = t[0][j-1]` if `pattern[j-1] == '*'` else `False`. -/
def dpFirstRowAux (prev : Bool) : List Char → List Bool
  | [] => []
  | c :: ps =>
    let cur := if c = '*' then prev else false
    cur :: dpFirstRowAux cur ps

/-- First row of the table: `t[0][0] = True` then the `i = 0` loop. -/
def dpFirstRow (pattern : List Char) : List Bool :=
  true :: dpFirstRowAux true pattern

/-- Inner loop over `j` for a fixed topic character `tc = topic[i-1]`:
walks the pattern together with the previous row (`up` is `t[i-1][j]`),
carrying `diag = t[i-1][j-1]` and `left = t[i][j-1]`. -/
def dpNextRowAux (tc : Char) : List Char → List Bool → Bool → Bool → List Bool
  | [], _, _, _ => []
  | _ :: _, [], _, _ => []
  | c :: ps, up :: pvs, diag, left =>
    let cur :=
      if c = '*' then up || left
      else if c = '?' ∨ tc = c then diag
      else false
    cur :: dpNextRowAux tc ps pvs up cur

/-- Row `i` of the table from row `i-1`: `t[i][0] = False`, then the
inner loop. -/
def dpNextRow (tc : Char) (pattern : List Char) (prev : List Bool) : List Bool :=
  match prev with
  | [] => []
  | d :: pv => false :: dpNextRowAux tc pattern pv d false

/-- The last row `t[n][0..m]` of the table: fold the outer loop over the
topic characters. -/
def dpLastRow (topic pattern : List Char) : List Bool :=
  topic.foldl (fun row tc => dpNextRow tc pattern row) (dpFirstRow pattern)

/-- Embedding of `is_matching(topic, pattern)`: the value `t[n][m]`. -/
def is_matching (topic pattern : String) : Bool :=
  (dpLastRow topic.data pattern.data).getLastD false

/-! ## Glob semantics (the specification of the matcher)

`Glob p t` states that pattern `p` matches topic `t` under the spec's
semantics: `?` matches exactly one character, `*` matches zero or more
characters, and every other character matches itself exactly. -/

/-- Declarative glob semantics from the spec. -/
inductive Glob : List Char → List Char → Prop
  | nil : Glob [] []
  | star {p t : List Char} (s : List Char) : Glob p t → Glob ('*' :: p) (s ++ t)
  | qmark {p t : List Char} (c : Char) : Glob p t → Glob ('?' :: p) (c :: t)
  | lit {p t : List Char} (c : Char) : c ≠ '*' → c ≠ '?' → Glob p t →
      Glob (c :: p) (c :: t)

/-- Inversion principle for `Glob`. -/
theorem glob_inv {p t : List Char} (h : Glob p t) :
    (p = [] ∧ t = []) ∨
    (∃ q s u, p = '*' :: q ∧ t = s ++ u ∧ Glob q u) ∨
    (∃ q c u, p = '?' :: q ∧ t = c :: u ∧ Glob q u) ∨
    (∃ q c u, c ≠ '*' ∧ c ≠ '?' ∧ p = c :: q ∧ t = c :: u ∧ Glob q u) := by
  cases h with
  | nil => exact Or.inl ⟨rfl, rfl⟩
  | star s hg => exact Or.inr (Or.inl ⟨_, s, _, rfl, rfl, hg⟩)
  | qmark c hg => exact Or.inr (Or.inr (Or.inl ⟨_, c, _, rfl, rfl, hg⟩))
  | lit c h1 h2 hg => exact Or.inr (Or.inr (Or.inr ⟨_, c, _, h1, h2, rfl, rfl, hg⟩))

theorem glob_nil_iff {t : List Char} : Glob [] t ↔ t = [] := by
  constructor
  · intro h
    rcases glob_inv h with ⟨_, ht⟩ | ⟨q, s, u, hp, _⟩ | ⟨q, c, u, hp, _⟩ |
      ⟨q, c, u, _, _, hp, _⟩ <;> first | exact ht | exact absurd hp (by simp)
  · rintro rfl; exact Glob.nil

theorem glob_star_nil_iff {p : List Char} : Glob ('*' :: p) [] ↔ Glob p [] := by
  constructor
  · intro h
    rcases glob_inv h with ⟨hp, _⟩ | ⟨q, s, u, hp, ht, hg⟩ | ⟨q, c, u, hp, ht, _⟩ |
      ⟨q, c, u, hc1, _, hp, ht, _⟩
    · exact absurd hp (by simp)
    · rcases List.append_eq_nil.mp ht.symm with ⟨rfl, rfl⟩
      cases hp; exact hg
    · exact absurd ht (by simp)
    · exact absurd ht (by simp)
  · intro h
    exact (Glob.star [] h : Glob ('*' :: p) ([] ++ []))

theorem glob_star_cons_iff {p t : List Char} {c : Char} :
    Glob ('*' :: p) (c :: t) ↔ Glob p (c :: t) ∨ Glob ('*' :: p) t := by
  constructor
  · intro h
    rcases glob_inv h with ⟨hp, _⟩ | ⟨q, s, u, hp, ht, hg⟩ | ⟨q, d, u, hp, ht, _⟩ |
      ⟨q, d, u, hd1, _, hp, ht, _⟩
    · exact absurd hp (by simp)
    · cases hp
      cases s with
      | nil =>
        left; simpa using ht ▸ hg
      | cons a s' =>
        right
        rw [List.cons_append] at ht
        cases ht
        exact Glob.star s' hg
    · simp at hp
    · simp only [List.cons.injEq] at hp
      exact absurd hp.1.symm hd1
  · rintro (h | h)
    · exact (Glob.star [] h : Glob ('*' :: p) ([] ++ (c :: t)))
    · rcases glob_inv h with ⟨hp, _⟩ | ⟨q, s, u, hp, ht, hg⟩ | ⟨q, d, u, hp, ht, _⟩ |
        ⟨q, d, u, hd1, _, hp, ht, _⟩
      · exact absurd hp (by simp)
      · cases hp; cases ht
        exact (Glob.star (c :: s) hg : Glob ('*' :: _) ((c :: s) ++ _))
      · simp at hp
      · simp only [List.cons.injEq] at hp
        exact absurd hp.1.symm hd1

theorem glob_qmark_cons_iff {p t : List Char} {c : Char} :
    Glob ('?' :: p) (c :: t) ↔ Glob p t := by
  constructor
  · intro h
    rcases glob_inv h with ⟨hp, _⟩ | ⟨q, s, u, hp, ht, hg⟩ | ⟨q, d, u, hp, ht, hg⟩ |
      ⟨q, d, u, _, hd2, hp, ht, _⟩
    · exact absurd hp (by simp)
    · simp at hp
    · cases hp; cases ht; exact hg
    · simp only [List.cons.injEq] at hp
      exact absurd hp.1.symm hd2
  · intro h; exact Glob.qmark c h

theorem glob_qmark_nil_iff {p : List Char} : ¬ Glob ('?' :: p) [] := by
  intro h
  rcases glob_inv h with ⟨hp, _⟩ | ⟨q, s, u, hp, ht, _⟩ | ⟨q, d, u, hp, ht, _⟩ |
    ⟨q, d, u, _, _, hp, ht, _⟩
  · exact absurd hp (by simp)
  · simp at hp
  · simp at ht
  · simp at ht

theorem glob_lit_cons_iff {p t : List Char} {c d : Char} (hc1 : c ≠ '*')
    (hc2 : c ≠ '?') : Glob (c :: p) (d :: t) ↔ (d = c ∧ Glob p t) := by
  constructor
  · intro h
    rcases glob_inv h with ⟨hp, _⟩ | ⟨q, s, u, hp, ht, _⟩ | ⟨q, e, u, hp, ht, _⟩ |
      ⟨q, e, u, _, _, hp, ht, hg⟩
    · exact absurd hp (by simp)
    · simp only [List.cons.injEq] at hp
      exact absurd hp.1 hc1
    · simp only [List.cons.injEq] at hp
      exact absurd hp.1 hc2
    · simp only [List.cons.injEq] at hp ht
      exact ⟨ht.1.trans hp.1.symm, hp.2 ▸ ht.2 ▸ hg⟩
  · rintro ⟨rfl, h⟩; exact Glob.lit d hc1 hc2 h

theorem glob_lit_nil_iff {p : List Char} {c : Char} (hc1 : c ≠ '*') :
    ¬ Glob (c :: p) [] := by
  intro h
  rcases glob_inv h with ⟨hp, _⟩ | ⟨q, s, u, hp, ht, _⟩ | ⟨q, d, u, hp, ht, _⟩ |
    ⟨q, d, u, _, _, hp, ht, _⟩
  · exact absurd hp (by simp)
  · rcases List.append_eq_nil.mp ht.symm with ⟨rfl, rfl⟩
    simp only [List.cons.injEq] at hp
    exact absurd hp.1 hc1
  · simp at ht
  · simp at ht

theorem glob_cons_nil_iff {p : List Char} {c : Char} :
    Glob (c :: p) [] ↔ (c = '*' ∧ Glob p []) := by
  by_cases hc : c = '*'
  · subst hc
    simpa using glob_star_nil_iff
  · simp [hc, glob_lit_nil_iff hc]

/-- A pattern matches the empty topic iff it consists only of stars. -/
theorem glob_nil_topic_iff (p : List Char) : Glob p [] ↔ p.all (· = '*') := by
  induction p with
  | nil => simp [glob_nil_iff]
  | cons c ps ih =>
    rw [glob_cons_nil_iff, ih]
    simp

/-! ## Correctness of the DP rows

`RowOK T patRev ps row` states that `row` holds the table cells for the
pattern prefixes extending the already-consumed (reversed) prefix
`patRev` by the characters of `ps`, against the already-consumed
(reversed) topic prefix `T`: cell `j` of the table is true iff the
reversed pattern prefix matches the reversed topic prefix. -/

def RowOK (T : List Char) : List Char → List Char → List Bool → Prop
  | _, [], row => row = []
  | patRev, c :: ps, row =>
    match row with
    | [] => False
    | b :: rest => (b = true ↔ Glob (c :: patRev) T) ∧ RowOK T (c :: patRev) ps rest

/-- Full-row version: the head cell is column `0` (empty pattern prefix). -/
def FullRow (T pattern : List Char) (row : List Bool) : Prop :=
  match row with
  | [] => False
  | b :: rest => (b = true ↔ Glob [] T) ∧ RowOK T [] pattern rest

theorem dpFirstRowAux_ok (ps : List Char) :
    ∀ (patRev : List Char) (prev : Bool), (prev = true ↔ Glob patRev []) →
      RowOK [] patRev ps (dpFirstRowAux prev ps) := by
  induction ps with
  | nil => intro patRev prev _; rfl
  | cons c ps ih =>
    intro patRev prev hprev
    simp only [dpFirstRowAux, RowOK]
    constructor
    · rw [glob_cons_nil_iff]
      by_cases hc : c = '*' <;> simp [hc, ← hprev]
    · apply ih
      rw [glob_cons_nil_iff]
      by_cases hc : c = '*' <;> simp [hc, ← hprev]

theorem dpFirstRow_ok (pattern : List Char) :
    FullRow [] pattern (dpFirstRow pattern) := by
  refine ⟨by simp [glob_nil_iff], ?_⟩
  exact dpFirstRowAux_ok pattern [] true (by simp [glob_nil_iff])

theorem dpNextRowAux_ok (tc : Char) (T : List Char) (ps : List Char) :
    ∀ (patRev : List Char) (pvs : List Bool) (diag left : Bool),
      RowOK T patRev ps pvs →
      (diag = true ↔ Glob patRev T) →
      (left = true ↔ Glob patRev (tc :: T)) →
      RowOK (tc :: T) patRev ps (dpNextRowAux tc ps pvs diag left) := by
  induction ps with
  | nil => intro patRev pvs diag left _ _ _; rfl
  | cons c ps ih =>
    intro patRev pvs diag left hrow hdiag hleft
    match pvs with
    | [] => exact absurd hrow (by simp [RowOK])
    | up :: pvs =>
      obtain ⟨hup, hrest⟩ := hrow
      have hcur :
          (if c = '*' then up || left
            else if c = '?' ∨ tc = c then diag else false) = true ↔
            Glob (c :: patRev) (tc :: T) := by
        by_cases hc : c = '*'
        · subst hc
          rw [if_pos rfl, glob_star_cons_iff]
          simp [Bool.or_eq_true, ← hup, ← hleft, or_comm]
        · rw [if_neg hc]
          by_cases hq : c = '?'
          · subst hq
            rw [if_pos (Or.inl rfl), glob_qmark_cons_iff]
            exact hdiag
          · by_cases htc : tc = c
            · rw [if_pos (Or.inr htc), glob_lit_cons_iff hc hq]
              simp [htc, ← hdiag]
            · rw [if_neg (by simp [hq, htc]), glob_lit_cons_iff hc hq]
              simp [htc]
      exact ⟨hcur, ih (c :: patRev) pvs up _ hrest hup hcur⟩

theorem dpNextRow_ok (tc : Char) (T pattern : List Char) (prev : List Bool)
    (h : FullRow T pattern prev) :
    FullRow (tc :: T) pattern (dpNextRow tc pattern prev) := by
  match prev with
  | [] => exact absurd h (by simp [FullRow])
  | b :: rest =>
    obtain ⟨hb, hrest⟩ := h
    refine ⟨by simp [glob_nil_iff], ?_⟩
    exact dpNextRowAux_ok tc T pattern [] rest b false hrest hb
      (by simp [glob_nil_iff])

theorem dpLastRow_fold_ok (pattern : List Char) (ts : List Char) :
    ∀ (T : List Char) (row : List Bool), FullRow T pattern row →
      FullRow (ts.reverse ++ T) pattern
        (ts.foldl (fun r tc => dpNextRow tc pattern r) row) := by
  induction ts with
  | nil => intro T row h; simpa using h
  | cons a ts ih =>
    intro T row h
    have := ih (a :: T) (dpNextRow a pattern row) (dpNextRow_ok a T pattern row h)
    simpa using this

theorem getLastD_cons_eq {α : Type} (b a : α) (l : List α) :
    (b :: l).getLastD a = l.getLastD b := by
  cases l <;> simp [List.getLastD]

theorem rowOK_getLastD (T : List Char) (ps : List Char) :
    ∀ (patRev : List Char) (row : List Bool) (b : Bool),
      (b = true ↔ Glob patRev T) → RowOK T patRev ps row →
      (row.getLastD b = true ↔ Glob (ps.reverse ++ patRev) T) := by
  induction ps with
  | nil =>
    intro patRev row b hb hrow
    have : row = [] := hrow
    subst this
    simpa using hb
  | cons c ps ih =>
    intro patRev row b hb hrow
    match row with
    | [] => exact absurd hrow (by simp [RowOK])
    | b2 :: rest =>
      obtain ⟨hb2, hrest⟩ := hrow
      rw [getLastD_cons_eq]
      have := ih (c :: patRev) rest b2 hb2 hrest
      simpa using this

/-- The table value `t[n][m]` decides `Glob` on the reversed strings. -/
theorem is_matching_iff_glob_rev (topic pattern : String) :
    is_matching topic pattern = true ↔
      Glob pattern.data.reverse topic.data.reverse := by
  unfold is_matching dpLastRow
  have hfull := dpLastRow_fold_ok pattern.data topic.data [] (dpFirstRow pattern.data)
    (dpFirstRow_ok pattern.data)
  rw [List.append_nil] at hfull
  match hrow : topic.data.foldl (fun r tc => dpNextRow tc pattern.data r)
      (dpFirstRow pattern.data) with
  | [] => rw [hrow] at hfull; exact absurd hfull (by simp [FullRow])
  | b :: rest =>
    rw [hrow] at hfull
    obtain ⟨hb, hrest⟩ := hfull
    rw [getLastD_cons_eq]
    have := rowOK_getLastD topic.data.reverse pattern.data [] rest b hb hrest
    simpa using this

/-! ## Reversal symmetry of the glob semantics -/

theorem glob_append_lit {q s : List Char} {c : Char} (hc1 : c ≠ '*')
    (hc2 : c ≠ '?') (h : Glob q s) : Glob (q ++ [c]) (s ++ [c]) := by
  induction h with
  | nil => exact Glob.lit c hc1 hc2 Glob.nil
  | star u hg ih =>
    rw [List.cons_append, List.append_assoc]
    exact Glob.star u ih
  | qmark d hg ih => exact Glob.qmark d ih
  | lit d h1 h2 hg ih => exact Glob.lit d h1 h2 ih

theorem glob_append_qmark {q s : List Char} (c : Char) (h : Glob q s) :
    Glob (q ++ ['?']) (s ++ [c]) := by
  induction h with
  | nil => exact Glob.qmark c Glob.nil
  | star u hg ih =>
    rw [List.cons_append, List.append_assoc]
    exact Glob.star u ih
  | qmark d hg ih => exact Glob.qmark d ih
  | lit d h1 h2 hg ih => exact Glob.lit d h1 h2 ih

theorem glob_append_star {q s : List Char} (u : List Char) (h : Glob q s) :
    Glob (q ++ ['*']) (s ++ u) := by
  induction h generalizing u with
  | nil => simpa using Glob.star u Glob.nil
  | star v hg ih =>
    rw [List.cons_append, List.append_assoc]
    exact Glob.star v (ih u)
  | qmark d hg ih => exact Glob.qmark d (ih u)
  | lit d h1 h2 hg ih => exact Glob.lit d h1 h2 (ih u)

theorem glob_reverse {q s : List Char} (h : Glob q s) :
    Glob q.reverse s.reverse := by
  induction h with
  | nil => exact Glob.nil
  | star u hg ih =>
    rw [List.reverse_cons, List.reverse_append]
    exact glob_append_star u.reverse ih
  | qmark d hg ih =>
    rw [List.reverse_cons, List.reverse_cons]
    exact glob_append_qmark d ih
  | lit d h1 h2 hg ih =>
    rw [List.reverse_cons, List.reverse_cons]
    exact glob_append_lit h1 h2 ih

theorem glob_reverse_iff {q s : List Char} :
    Glob q.reverse s.reverse ↔ Glob q s := by
  constructor
  · intro h
    simpa using glob_reverse h
  · exact glob_reverse

/-- Main correctness theorem for the matcher: `is_matching topic pattern`
is true iff `pattern` matches `topic` under the glob semantics. -/
theorem is_matching_iff_glob (topic pattern : String) :
    is_matching topic pattern = true ↔ Glob pattern.data topic.data := by
  rw [is_matching_iff_glob_rev, glob_reverse_iff]

/-! ## Python dicts as insertion-ordered association lists

Python dicts preserve insertion order; updating an existing key keeps
its position, inserting a new key appends.  Key equality is a
parameter, because `Subscription.__eq__` compares only topic and
handler. -/

def dictGet {κ β : Type} (eq : κ → κ → Bool) (l : List (κ × β)) (k : κ) :
    Option β :=
  match l.find? (fun kv => eq kv.1 k) with
  | some kv => some kv.2
  | none => none

def dictMem {κ β : Type} (eq : κ → κ → Bool) (l : List (κ × β)) (k : κ) : Bool :=
  (dictGet eq l k).isSome

def dictSet {κ β : Type} (eq : κ → κ → Bool) (l : List (κ × β)) (k : κ)
    (v : β) : List (κ × β) :=
  if dictMem eq l k then l.map (fun kv => if eq kv.1 k then (kv.1, v) else kv)
  else l ++ [(k, v)]

def dictKeys {κ β : Type} (l : List (κ × β)) : List κ := l.map Prod.fst

/-- Removal of the entry for `k` (Python `del d[k]` / `d.pop(k)`). -/
def dictDel {κ β : Type} (eq : κ → κ → Bool) (l : List (κ × β)) (k : κ) :
    List (κ × β) :=
  l.eraseP (fun kv => eq kv.1 k)

/-! ## Subscription (source lines 621-691) -/

/-- A subscription record.  Handlers are opaque callables, modelled by
an identifier. -/
structure Subscription where
  topic : String
  handler : Nat
  priority : Int
deriving DecidableEq, Repr

/-- Embedding of `Subscription.__eq__` (line 666): topic and handler
only, priority deliberately excluded. -/
def subEq (a b : Subscription) : Bool :=
  a.topic == b.topic && a.handler == b.handler

/-- Embedding of Python `sorted(subs, reverse=True)` under
`Subscription.__lt__` (priority comparison, line 669): a stable sort
producing priority-descending order.  A stable descending sort is
uniquely determined (order by priority descending, original position
ascending), and insertion sort with `b.priority ≤ a.priority` computes
exactly that, so this faithfully models CPython's stable `sorted`. -/
def sortDesc (l : List Subscription) : List Subscription :=
  List.insertionSort (fun a b => b.priority ≤ a.priority) l

/-- Embedding of Python `sorted` on lists of topic strings
(lexicographic, stable). -/
def sortStr (l : List String) : List String :=
  List.insertionSort (fun a b => ¬ b < a) l

/-! ## Messages and the bus state -/

/-- An opaque message: `ty` models its runtime type (for the
`isinstance` check against `publishable_types`), `val` its payload. -/
structure Msg where
  ty : Nat
  val : Nat
deriving DecidableEq, Repr

/-- A request carries an id and a response callback (line 341). -/
structure Request where
  id : Nat
  callback : Nat
deriving DecidableEq, Repr

/-- A response carries the correlation id of its request (line 377). -/
structure Response where
  correlation_id : Nat
  val : Nat
deriving DecidableEq, Repr

/-- Events observable from `publish_c`: synchronous handler invocations
and external emissions of `(topic, payload)` pairs. -/
inductive PubEvent where
  | invoke (handler : Nat) (msg : Msg)
  | emit (topic : String) (payload : List Nat)
deriving DecidableEq, Repr

/-- The mutable state of `MessageBus` (lines 129-142).  The serializer
is an opaque function to payload bytes; `none` models no serializer. -/
structure BusState where
  endpoints : List (String × Nat)
  patterns : List (String × List Subscription)
  subscriptions : List (Subscription × List String)
  correlation_index : List (Nat × Nat)
  has_backing : Bool
  serializer : Option (Msg → List Nat)
  publishable_types : List Nat
  sent_count : Nat
  req_count : Nat
  res_count : Nat
  pub_count : Nat

/-- Modelled from the spec: `Condition.valid_string`
(`nautilus_trader.core.correctness`, not under src/) raises an
invalid-argument error exactly on an empty string (spec section 7:
"raised to caller (empty string, ...)").  `Condition.not_none` and
`Condition.callable` always pass in the model, since embedded values
are never `None` and handlers are identifiers of callables. -/
def validString (s : String) : Bool := s ≠ ""

/-- Modelled from the spec: `Condition.not_negative_int` raises exactly
on a negative value (spec section 7: "negative priority"). -/
def notNegativeInt (i : Int) : Bool := 0 ≤ i

/-- Embedding of `MessageBus.__init__` (lines 129-142): the parts of
construction the state model observes.  `EXTERNAL_PUBLISHING_TYPES` is
an imported constant (not under src/), passed as a parameter. -/
def initBus (EXTERNAL_PUBLISHING_TYPES : List Nat) (databaseConfigured : Bool)
    (serializer : Option (Msg → List Nat)) (types_filter : Option (List Nat)) :
    BusState where
  endpoints := []
  patterns := []
  subscriptions := []
  correlation_index := []
  has_backing := databaseConfigured
  serializer := serializer
  publishable_types :=
    match types_filter with
    | none => EXTERNAL_PUBLISHING_TYPES
    | some f => EXTERNAL_PUBLISHING_TYPES.filter (fun o => ¬ o ∈ f)
  sent_count := 0
  req_count := 0
  res_count := 0
  pub_count := 0

/-! ## Endpoint operations -/

/-- Embedding of `register` (lines 276-282). -/
def register (s : BusState) (endpoint : String) (handler : Nat) :
    Except String BusState :=
  if ¬ validString endpoint then .error "invalid endpoint" else
  if dictMem (· == ·) s.endpoints endpoint then .error "endpoint already registered"
  else .ok { s with endpoints := s.endpoints ++ [(endpoint, handler)] }

/-- Embedding of `deregister` (lines 307-314). -/
def deregister (s : BusState) (endpoint : String) (handler : Nat) :
    Except String BusState :=
  if ¬ validString endpoint then .error "invalid endpoint" else
  match dictGet (· == ·) s.endpoints endpoint with
  | none => .error "endpoint not registered"
  | some h =>
    if h ≠ handler then .error "handler mismatch"
    else .ok { s with endpoints := dictDel (· == ·) s.endpoints endpoint }

/-- Embedding of `send` (lines 328-339).  Only `Condition.not_none`
checks are made (they always pass in the model); an unknown endpoint is
logged and dropped. -/
def send (s : BusState) (endpoint : String) (msg : Msg) :
    Except String (BusState × List (Nat × Msg)) :=
  match dictGet (· == ·) s.endpoints endpoint with
  | none => .ok (s, [])
  | some handler => .ok ({ s with sent_count := s.sent_count + 1 }, [(handler, msg)])

/-! ## Request / response -/

/-- Embedding of `request` (lines 355-375): duplicate ids are dropped;
the correlation entry is inserted before the endpoint lookup. -/
def request (s : BusState) (endpoint : String) (req : Request) :
    Except String (BusState × List (Nat × Request)) :=
  if dictMem (· == ·) s.correlation_index req.id then .ok (s, [])
  else
    let s1 := { s with
      correlation_index := dictSet (· == ·) s.correlation_index req.id req.callback }
    match dictGet (· == ·) s1.endpoints endpoint with
    | none => .ok (s1, [])
    | some handler => .ok ({ s1 with req_count := s1.req_count + 1 }, [(handler, req)])

/-- First phase of `response` (lines 391-397): pop the correlation
entry and return the callback, before it is invoked. -/
def response_pop (s : BusState) (resp : Response) : BusState × Option Nat :=
  match dictGet (· == ·) s.correlation_index resp.correlation_id with
  | none => (s, none)
  | some cb =>
    ({ s with correlation_index :=
        dictDel (· == ·) s.correlation_index resp.correlation_id }, some cb)

/-- Embedding of `response` (lines 389-400): pop, then invoke the
callback and increment `res_count`. -/
def response (s : BusState) (resp : Response) : BusState × List (Nat × Response) :=
  match response_pop s resp with
  | (s1, none) => (s1, [])
  | (s1, some cb) => ({ s1 with res_count := s1.res_count + 1 }, [(cb, resp)])

/-- Embedding of `is_pending_request` (lines 237-253). -/
def is_pending_request (s : BusState) (request_id : Nat) : Bool :=
  dictMem (· == ·) s.correlation_index request_id

/-! ## Subscribe / unsubscribe -/

/-- Loop body of `subscribe` (lines 460-466): for one key of
`self._patterns`, rebuild the cached array and record the key when
`is_matching(topic, pattern)` holds. -/
def subscribeStep (topic : String) (sub : Subscription)
    (st : BusState × List String) (pattern : String) : BusState × List String :=
  if is_matching topic pattern then
    let subs := (dictGet (· == ·) st.1.patterns pattern).getD []
    let subs2 := sortDesc (subs ++ [sub])
    ({ st.1 with patterns := dictSet (· == ·) st.1.patterns pattern subs2 },
      st.2 ++ [pattern])
  else st

/-- Embedding of `subscribe` (lines 440-470).  Note the source's
`is_matching(topic, pattern)` call at line 461: the new subscription's
topic is passed as the `topic` argument and the cached concrete topic
(a key of `self._patterns`) as the `pattern` argument. -/
def subscribe (s : BusState) (topic : String) (handler : Nat)
    (priority : Int := 0) : Except String BusState :=
  if ¬ validString topic then .error "invalid topic" else
  if ¬ notNegativeInt priority then .error "negative priority" else
  let sub : Subscription := ⟨topic, handler, priority⟩
  if dictMem subEq s.subscriptions sub then .ok s
  else
    let res := (dictKeys s.patterns).foldl (subscribeStep topic sub) (s, [])
    .ok { res.1 with
      subscriptions := dictSet subEq res.1.subscriptions sub (sortStr res.2) }

/-- Loop body of `unsubscribe` (lines 505-509): remove the subscription
from one cached array and re-sort it. -/
def unsubscribeStep (sub : Subscription) (st : BusState) (pattern : String) :
    BusState :=
  let subs := (dictGet (· == ·) st.patterns pattern).getD []
  let subs2 := sortDesc (subs.eraseP (fun x => subEq x sub))
  { st with patterns := dictSet (· == ·) st.patterns pattern subs2 }

/-- Embedding of `unsubscribe` (lines 492-513).  `subs.remove(sub)`
removes the first `__eq__`-equal element (the data-model invariants
guarantee it is present, so Python's `ValueError` cannot fire). -/
def unsubscribe (s : BusState) (topic : String) (handler : Nat) :
    Except String BusState :=
  if ¬ validString topic then .error "invalid topic" else
  let sub : Subscription := ⟨topic, handler, 0⟩
  match dictGet subEq s.subscriptions sub with
  | none => .ok s
  | some pats =>
    let s1 := pats.foldl (unsubscribeStep sub) s
    .ok { s1 with subscriptions := dictDel subEq s1.subscriptions sub }

/-! ## Publish and lazy resolution -/

/-- Loop body of `_resolve_subscriptions` (lines 576-581): record the
topic in one matching subscription's index entry. -/
def resolveStep (topic : String) (st : BusState) (sub : Subscription) :
    BusState :=
  let ms := (dictGet subEq st.subscriptions sub).getD []
  let ms2 := if topic ∈ ms then ms else ms ++ [topic]
  { st with subscriptions := dictSet subEq st.subscriptions sub (sortStr ms2) }

/-- Embedding of `_resolve_subscriptions` (lines 565-583): scan the
subscription index in insertion order, keep the subscriptions whose
pattern matches the topic, sort descending, cache the result, and
record the topic against each matching subscription. -/
def resolve_subscriptions (s : BusState) (topic : String) :
    BusState × List Subscription :=
  let subs_list := (dictKeys s.subscriptions).filter
    (fun sub => is_matching topic sub.topic)
  let subs_sorted := sortDesc subs_list
  let s1 := { s with patterns := dictSet (· == ·) s.patterns topic subs_sorted }
  (subs_sorted.foldl (resolveStep topic) s1, subs_sorted)

/-- Embedding of `publish_c` (lines 532-563): resolve (from cache or by
scanning), invoke every matched handler in order, then emit externally
if configured, a serializer exists, and the message's type is
publishable. -/
def publish_c (s : BusState) (topic : String) (msg : Msg) :
    BusState × List PubEvent :=
  let resolved := match dictGet (· == ·) s.patterns topic with
    | some subs => (s, subs)
    | none => resolve_subscriptions s topic
  let invokes := resolved.2.map (fun sub => PubEvent.invoke sub.handler msg)
  let emits :=
    if resolved.1.has_backing then
      match resolved.1.serializer with
      | none => []
      | some ser =>
        if msg.ty ∈ resolved.1.publishable_types then [PubEvent.emit topic (ser msg)]
        else []
    else []
  ({ resolved.1 with pub_count := resolved.1.pub_count + 1 }, invokes ++ emits)

/-- Embedding of `publish` (line 530): delegates to `publish_c`. -/
def publish (s : BusState) (topic : String) (msg : Msg) :
    BusState × List PubEvent :=
  publish_c s topic msg

/-- The ordered subscription list a `publish_c` call dispatches to:
the cached entry, or the freshly resolved list on a cache miss. -/
def pubList (s : BusState) (topic : String) : List Subscription :=
  match dictGet (· == ·) s.patterns topic with
  | some subs => subs
  | none => (resolve_subscriptions s topic).2

/-! ## Association-list dictionary lemmas -/

theorem dictGet_nil {κ β : Type} (eq : κ → κ → Bool) (k : κ) :
    dictGet eq ([] : List (κ × β)) k = none := rfl

theorem dictGet_cons {κ β : Type} (eq : κ → κ → Bool) (kv : κ × β)
    (l : List (κ × β)) (k : κ) :
    dictGet eq (kv :: l) k = if eq kv.1 k then some kv.2 else dictGet eq l k := by
  unfold dictGet
  rw [List.find?_cons]
  by_cases h : eq kv.1 k <;> simp [h]

theorem dictGet_none_iff {κ β : Type} (eq : κ → κ → Bool) (l : List (κ × β))
    (k : κ) : dictGet eq l k = none ↔ ∀ kv ∈ l, eq kv.1 k = false := by
  induction l with
  | nil => simp [dictGet_nil]
  | cons kv l ih =>
    rw [dictGet_cons]
    by_cases h : eq kv.1 k <;> simp [h, ih]

theorem dictGet_append {κ β : Type} (eq : κ → κ → Bool) (l1 l2 : List (κ × β))
    (k : κ) :
    dictGet eq (l1 ++ l2) k =
      match dictGet eq l1 k with
      | some v => some v
      | none => dictGet eq l2 k := by
  induction l1 with
  | nil => simp [dictGet_nil]
  | cons kv l ih =>
    rw [List.cons_append, dictGet_cons, dictGet_cons]
    by_cases h : eq kv.1 k <;> simp [h, ih]

theorem dictMem_cons {κ β : Type} (eq : κ → κ → Bool) (kv : κ × β)
    (l : List (κ × β)) (k : κ) :
    dictMem eq (kv :: l) k = (eq kv.1 k || dictMem eq l k) := by
  unfold dictMem
  rw [dictGet_cons]
  by_cases h : eq kv.1 k <;> simp [h]

theorem dictGet_map_set {κ β : Type} (eq : κ → κ → Bool) (l : List (κ × β))
    (k : κ) (v : β) :
    dictGet eq (l.map (fun kv => if eq kv.1 k then (kv.1, v) else kv)) k =
      if dictMem eq l k then some v else none := by
  induction l with
  | nil => rfl
  | cons kv l ih =>
    by_cases h : eq kv.1 k
    · simp only [List.map_cons, if_pos h]
      rw [dictGet_cons, dictMem_cons]
      simp [h]
    · simp only [List.map_cons, if_neg h]
      rw [dictGet_cons, if_neg h, ih, dictMem_cons]
      simp [h]

theorem dictGet_map_set_other {κ β : Type} (eq : κ → κ → Bool)
    (l : List (κ × β)) (k1 k2 : κ) (v : β)
    (hincomp : ∀ a, eq a k1 = true → eq a k2 = false) :
    dictGet eq (l.map (fun kv => if eq kv.1 k1 then (kv.1, v) else kv)) k2 =
      dictGet eq l k2 := by
  induction l with
  | nil => rfl
  | cons kv l ih =>
    by_cases h1 : eq kv.1 k1
    · simp only [List.map_cons, if_pos h1]
      rw [dictGet_cons, dictGet_cons]
      simp only [hincomp kv.1 h1]
      simpa using ih
    · simp only [List.map_cons, if_neg h1]
      rw [dictGet_cons, dictGet_cons]
      by_cases hb : eq kv.1 k2 <;> simp [hb, ih]

theorem dictGet_not_mem_none {κ β : Type} (eq : κ → κ → Bool)
    (l : List (κ × β)) (k : κ) (h : ¬ dictMem eq l k = true) :
    dictGet eq l k = none := by
  cases hg : dictGet eq l k with
  | none => rfl
  | some v' => exact absurd (by simp [dictMem, hg]) h

theorem dictGet_set_self {κ β : Type} (eq : κ → κ → Bool) (l : List (κ × β))
    (k : κ) (v : β) (hrefl : eq k k = true) :
    dictGet eq (dictSet eq l k v) k = some v := by
  unfold dictSet
  by_cases h : dictMem eq l k
  · rw [if_pos h, dictGet_map_set, if_pos h]
  · rw [if_neg h, dictGet_append, dictGet_not_mem_none eq l k h]
    simp [dictGet_cons, hrefl]

theorem dictGet_set_ne {κ β : Type} (eq : κ → κ → Bool) (l : List (κ × β))
    (k1 k2 : κ) (v : β) (hrefl : eq k1 k1 = true)
    (hincomp : ∀ a, eq a k1 = true → eq a k2 = false) :
    dictGet eq (dictSet eq l k1 v) k2 = dictGet eq l k2 := by
  unfold dictSet
  by_cases h : dictMem eq l k1
  · rw [if_pos h]
    exact dictGet_map_set_other eq l k1 k2 v hincomp
  · rw [if_neg h, dictGet_append]
    cases hg : dictGet eq l k2 with
    | some v' => rfl
    | none => simp [dictGet_cons, hincomp k1 hrefl, dictGet_nil]

theorem dictKeys_set_mem {κ β : Type} (eq : κ → κ → Bool) (l : List (κ × β))
    (k : κ) (v : β) (h : dictMem eq l k = true) :
    dictKeys (dictSet eq l k v) = dictKeys l := by
  unfold dictSet dictKeys
  rw [if_pos h, List.map_map]
  congr 1
  funext kv
  by_cases hk : eq kv.1 k <;> simp [hk]

theorem dictKeys_set_new {κ β : Type} (eq : κ → κ → Bool) (l : List (κ × β))
    (k : κ) (v : β) (h : dictMem eq l k = false) :
    dictKeys (dictSet eq l k v) = dictKeys l ++ [k] := by
  unfold dictSet dictKeys
  rw [if_neg (by simp [h]), List.map_append]
  rfl

theorem dictMem_false_iff {κ β : Type} (eq : κ → κ → Bool) (l : List (κ × β))
    (k : κ) : dictMem eq l k = false ↔ ∀ kv ∈ l, eq kv.1 k = false := by
  rw [← dictGet_none_iff]
  unfold dictMem
  cases hg : dictGet eq l k <;> simp

theorem dictGet_del_ne {κ β : Type} (eq : κ → κ → Bool) (l : List (κ × β))
    (k1 k2 : κ) (hincomp : ∀ a, eq a k1 = true → eq a k2 = false) :
    dictGet eq (dictDel eq l k1) k2 = dictGet eq l k2 := by
  unfold dictDel
  induction l with
  | nil => rfl
  | cons kv l ih =>
    by_cases h1 : eq kv.1 k1
    · rw [List.eraseP_cons_of_pos (by simpa using h1), dictGet_cons,
        if_neg (by simp [hincomp kv.1 h1])]
    · rw [List.eraseP_cons_of_neg (by simpa using h1), dictGet_cons, dictGet_cons]
      by_cases hb : eq kv.1 k2 <;> simp [hb, ih]

theorem dictGet_del_self {κ β : Type} (eq : κ → κ → Bool) (l : List (κ × β))
    (k : κ) (hsymm : ∀ a b, eq a b = true → eq b a = true)
    (htrans : ∀ a b c, eq a b = true → eq b c = true → eq a c = true)
    (huniq : (dictKeys l).Pairwise (fun a b => eq a b = false)) :
    dictGet eq (dictDel eq l k) k = none := by
  unfold dictDel
  induction l with
  | nil => rfl
  | cons kv l ih =>
    rw [dictKeys, List.map_cons, List.pairwise_cons] at huniq
    by_cases h1 : eq kv.1 k
    · rw [List.eraseP_cons_of_pos (by simpa using h1)]
      rw [dictGet_none_iff]
      intro kv2 hmem
      by_cases h2 : eq kv2.1 k
      · have : eq kv.1 kv2.1 = true :=
          htrans kv.1 k kv2.1 h1 (hsymm kv2.1 k h2)
        have hfalse : eq kv.1 kv2.1 = false :=
          huniq.1 kv2.1 (List.mem_map_of_mem Prod.fst hmem)
        rw [this] at hfalse
        exact absurd hfalse (by simp)
      · simpa using h2
    · rw [List.eraseP_cons_of_neg (by simpa using h1), dictGet_cons, if_neg h1]
      exact ih huniq.2

theorem dictGet_congr {κ β : Type} (eq : κ → κ → Bool) (l : List (κ × β))
    (k1 k2 : κ) (h : eq k1 k2 = true)
    (hsymm : ∀ a b, eq a b = true → eq b a = true)
    (htrans : ∀ a b c, eq a b = true → eq b c = true → eq a c = true) :
    dictGet eq l k1 = dictGet eq l k2 := by
  induction l with
  | nil => rfl
  | cons kv l ih =>
    rw [dictGet_cons, dictGet_cons]
    by_cases h1 : eq kv.1 k1
    · rw [if_pos h1, if_pos (htrans kv.1 k1 k2 h1 h)]
    · rw [if_neg h1, if_neg ?_, ih]
      intro h2
      exact h1 (htrans kv.1 k2 k1 h2 (hsymm k1 k2 h))

theorem dictGet_some_mem_keys {κ β : Type} (eq : κ → κ → Bool)
    (l : List (κ × β)) (k : κ) (v : β) (h : dictGet eq l k = some v) :
    ∃ k', k' ∈ dictKeys l ∧ eq k' k = true ∧ (k', v) ∈ l := by
  induction l with
  | nil => simp [dictGet_nil] at h
  | cons kv l ih =>
    rw [dictGet_cons] at h
    by_cases h1 : eq kv.1 k
    · rw [if_pos h1] at h
      cases h
      exact ⟨kv.1, List.mem_cons_self _ _, h1, List.mem_cons_self _ _⟩
    · rw [if_neg h1] at h
      obtain ⟨k', hk', heq, hmem⟩ := ih h
      exact ⟨k', List.mem_cons_of_mem kv.1 hk', heq, List.mem_cons_of_mem kv hmem⟩

/-! ## Key-equality facts for the two dictionary key types -/

theorem strEq_refl (a : String) : (a == a) = true := by simp

theorem strEq_symm (a b : String) : (a == b) = true → (b == a) = true := by
  intro h
  rw [beq_iff_eq] at h ⊢
  exact h.symm

theorem strEq_trans (a b c : String) :
    (a == b) = true → (b == c) = true → (a == c) = true := by
  intro h1 h2
  rw [beq_iff_eq] at h1 h2 ⊢
  exact h1.trans h2

theorem subEq_refl (a : Subscription) : subEq a a = true := by
  simp [subEq]

theorem subEq_symm (a b : Subscription) : subEq a b = true → subEq b a = true := by
  simp [subEq]
  intro h1 h2
  exact ⟨h1.symm, h2.symm⟩

theorem subEq_trans (a b c : Subscription) :
    subEq a b = true → subEq b c = true → subEq a c = true := by
  simp [subEq]
  intro h1 h2 h3 h4
  exact ⟨h1.trans h3, h2.trans h4⟩

/-! ## Sorting lemmas -/

theorem sortDesc_perm (l : List Subscription) : List.Perm (sortDesc l) l :=
  List.perm_insertionSort _ l

theorem sortDesc_mem {x : Subscription} {l : List Subscription} :
    x ∈ sortDesc l ↔ x ∈ l :=
  List.mem_insertionSort _

theorem sortDesc_sorted (l : List Subscription) :
    (sortDesc l).Pairwise (fun a b => b.priority ≤ a.priority) := by
  haveI : IsTotal Subscription (fun a b => b.priority ≤ a.priority) :=
    ⟨fun a b => le_total b.priority a.priority⟩
  haveI : IsTrans Subscription (fun a b => b.priority ≤ a.priority) :=
    ⟨fun a b c hab hbc => le_trans hbc hab⟩
  exact List.sorted_insertionSort _ l

theorem filter_orderedInsert_pos (p : Int) (a : Subscription)
    (l : List Subscription) (ha : a.priority = p) :
    (List.orderedInsert (fun a b => b.priority ≤ a.priority) a l).filter
        (fun x => decide (x.priority = p)) =
      a :: l.filter (fun x => decide (x.priority = p)) := by
  induction l with
  | nil => simp [List.orderedInsert, ha]
  | cons b l ih =>
    simp only [List.orderedInsert]
    by_cases hr : b.priority ≤ a.priority
    · rw [if_pos hr]
      simp [List.filter_cons, ha]
    · rw [if_neg hr]
      have hb : ¬ b.priority = p := by
        intro hbp
        exact hr (by rw [hbp, ha])
      rw [List.filter_cons, if_neg (by simp [hb]), ih, List.filter_cons,
        if_neg (by simp [hb])]

theorem filter_orderedInsert_neg (p : Int) (a : Subscription)
    (l : List Subscription) (ha : ¬ a.priority = p) :
    (List.orderedInsert (fun a b => b.priority ≤ a.priority) a l).filter
        (fun x => decide (x.priority = p)) =
      l.filter (fun x => decide (x.priority = p)) := by
  induction l with
  | nil => simp [List.orderedInsert, ha]
  | cons b l ih =>
    simp only [List.orderedInsert]
    by_cases hr : b.priority ≤ a.priority
    · rw [if_pos hr]
      simp [List.filter_cons, ha]
    · rw [if_neg hr, List.filter_cons, List.filter_cons]
      by_cases hb : b.priority = p <;> simp [hb, ih]

/-- Stability of the descending sort: each priority class is unchanged
as a subsequence, so equal-priority elements keep their prior order. -/
theorem filter_sortDesc (p : Int) (l : List Subscription) :
    (sortDesc l).filter (fun x => decide (x.priority = p)) =
      l.filter (fun x => decide (x.priority = p)) := by
  induction l with
  | nil => rfl
  | cons a l ih =>
    show (List.orderedInsert _ a (sortDesc l)).filter _ = _
    by_cases ha : a.priority = p
    · rw [filter_orderedInsert_pos p a _ ha, ih]
      simp [ha]
    · rw [filter_orderedInsert_neg p a _ ha, ih]
      simp [ha]

theorem sortDesc_pairwise {R : Subscription → Subscription → Prop}
    (hsym : Symmetric R) {l : List Subscription}
    (h : l.Pairwise R) : (sortDesc l).Pairwise R :=
  (List.Perm.pairwise_iff (fun {x y} hxy => hsym hxy) (sortDesc_perm l)).mpr h

theorem sortStr_perm (l : List String) : List.Perm (sortStr l) l :=
  List.perm_insertionSort _ l

theorem sortStr_mem {x : String} {l : List String} : x ∈ sortStr l ↔ x ∈ l :=
  List.mem_insertionSort _

theorem sortStr_nodup {l : List String} (h : l.Nodup) : (sortStr l).Nodup :=
  ((sortStr_perm l).nodup_iff).mpr h

/-! ## eraseP helper lemmas -/

theorem filter_eraseP_no {α : Type} (l : List α) (q f : α → Bool)
    (h : ∀ x ∈ l, q x = true → f x = false) :
    (l.eraseP q).filter f = l.filter f := by
  induction l with
  | nil => rfl
  | cons a l ih =>
    by_cases ha : q a
    · rw [List.eraseP_cons_of_pos ha, List.filter_cons,
        if_neg (by simp [h a (List.mem_cons_self _ _) ha])]
    · rw [List.eraseP_cons_of_neg (by simpa using ha), List.filter_cons,
        List.filter_cons]
      have ih2 := ih (fun x hx => h x (List.mem_cons_of_mem a hx))
      by_cases hf : f a <;> simp [hf, ih2]

theorem filter_eraseP_comm {α : Type} (l : List α) (q f : α → Bool)
    (h : ∀ x ∈ l, q x = true → f x = true) :
    (l.eraseP q).filter f = (l.filter f).eraseP q := by
  induction l with
  | nil => rfl
  | cons a l ih =>
    have ih2 := ih (fun x hx => h x (List.mem_cons_of_mem a hx))
    by_cases ha : q a
    · rw [List.eraseP_cons_of_pos ha, List.filter_cons,
        if_pos (by simp [h a (List.mem_cons_self _ _) ha]),
        List.eraseP_cons_of_pos ha]
    · rw [List.eraseP_cons_of_neg (by simpa using ha), List.filter_cons,
        List.filter_cons]
      by_cases hf : f a
      · rw [if_pos (by simp [hf]), if_pos (by simp [hf]),
          List.eraseP_cons_of_neg (by simpa using ha), ih2]
      · rw [if_neg (by simp [hf]), if_neg (by simp [hf]), ih2]

theorem sublist_eraseP_of_no {α : Type} {l1 l2 : List α} (q : α → Bool)
    (hs : List.Sublist l1 l2) (h : ∀ x ∈ l1, q x = false) :
    List.Sublist l1 (l2.eraseP q) := by
  induction hs with
  | slnil => simp
  | cons a hs ih =>
    by_cases ha : q a
    · rw [List.eraseP_cons_of_pos ha]
      exact hs
    · rw [List.eraseP_cons_of_neg (by simpa using ha)]
      exact List.Sublist.cons a (ih h)
  | cons₂ a hs ih =>
    have ha : q a = false := h a (List.mem_cons_self _ _)
    rw [List.eraseP_cons_of_neg (by simp [ha])]
    exact List.Sublist.cons₂ a (ih (fun x hx => h x (List.mem_cons_of_mem a hx)))

/-- In a list whose elements are pairwise `subEq`-distinct (on the key
given by `f`), everything surviving `eraseP` of `k`-matches no longer
matches `k`. -/
theorem mem_eraseP_key {α : Type} (f : α → Subscription) (l : List α)
    (k : Subscription) (hl : l.Pairwise (fun a b => subEq (f a) (f b) = false)) :
    ∀ x ∈ l.eraseP (fun y => subEq (f y) k), subEq (f x) k = false := by
  induction l with
  | nil => simp
  | cons a l ih =>
    rw [List.pairwise_cons] at hl
    by_cases ha : subEq (f a) k
    · rw [List.eraseP_cons_of_pos (by simpa using ha)]
      intro x hx
      by_cases hxk : subEq (f x) k
      · have hax : subEq (f a) (f x) = true :=
          subEq_trans (f a) k (f x) ha (subEq_symm (f x) k hxk)
        have := hl.1 x hx
        rw [hax] at this
        exact absurd this (by simp)
      · simpa using hxk
    · rw [List.eraseP_cons_of_neg (by simpa using ha)]
      intro x hx
      rcases List.mem_cons.mp hx with rfl | hx2
      · simpa using ha
      · exact ih hl.2 x hx2

/-! ## Fold characterization lemmas for the three mutation loops -/

theorem strIncomp {k1 k2 : String} (h : ¬ k1 = k2) :
    ∀ a : String, (a == k1) = true → (a == k2) = false := by
  intro a h1
  rw [beq_iff_eq] at h1
  subst h1
  exact beq_eq_false_iff_ne.mpr h

theorem subIncomp {k1 k2 : Subscription} (h : subEq k2 k1 = false) :
    ∀ a, subEq a k1 = true → subEq a k2 = false := by
  intro a h1
  by_cases h2 : subEq a k2
  · have : subEq k2 k1 = true := subEq_trans k2 a k1 (subEq_symm a k2 h2) h1
    rw [this] at h
    exact absurd h (by simp)
  · simpa using h2

/-- The rebuilt cache entry `subscribe` writes for a matched key. -/
def subNewVal (s0 : BusState) (sub : Subscription) (T : String) :
    List Subscription :=
  sortDesc ((dictGet (· == ·) s0.patterns T).getD [] ++ [sub])

/-- A state with one cache entry rewritten (helper for fold lemmas). -/
def withPat (st : BusState) (k : String) (v : List Subscription) : BusState :=
  { st with patterns := dictSet (· == ·) st.patterns k v }

/-- Behaviour of the `subscribe` loop over a duplicate-free list of
cache keys whose entries still hold their original (`s0`) values. -/
theorem subscribe_fold (topic : String) (sub : Subscription) (s0 : BusState) :
    ∀ (ks : List String) (st : BusState) (acc : List String),
      ks.Nodup →
      (∀ T ∈ ks, dictGet (· == ·) st.patterns T = dictGet (· == ·) s0.patterns T) →
      (∀ T ∈ ks, dictMem (· == ·) st.patterns T = true) →
      (∀ T, dictGet (· == ·)
          (ks.foldl (subscribeStep topic sub) (st, acc)).1.patterns T =
        if T ∈ ks ∧ is_matching topic T = true then some (subNewVal s0 sub T)
        else dictGet (· == ·) st.patterns T) ∧
      (ks.foldl (subscribeStep topic sub) (st, acc)).2 =
        acc ++ ks.filter (fun T => is_matching topic T) ∧
      (ks.foldl (subscribeStep topic sub) (st, acc)).1.subscriptions =
        st.subscriptions ∧
      dictKeys (ks.foldl (subscribeStep topic sub) (st, acc)).1.patterns =
        dictKeys st.patterns := by
  intro ks
  induction ks with
  | nil =>
    intro st acc _ _ _
    refine ⟨fun T => by simp, by simp, rfl, rfl⟩
  | cons k0 ks ih =>
    intro st acc hnd hagree hmem
    rw [List.nodup_cons] at hnd
    by_cases hm : is_matching topic k0
    · have hstep : subscribeStep topic sub (st, acc) k0 =
          (withPat st k0 (subNewVal s0 sub k0), acc ++ [k0]) := by
        unfold subscribeStep withPat subNewVal
        rw [if_pos hm, hagree k0 (List.mem_cons_self _ _)]
      have hyp1 : ∀ T ∈ ks,
          dictGet (· == ·) (withPat st k0 (subNewVal s0 sub k0)).patterns T =
            dictGet (· == ·) st.patterns T := by
        intro T hT
        exact dictGet_set_ne _ _ k0 T _ (strEq_refl k0)
          (strIncomp (fun hk => hnd.1 (hk ▸ hT)) )
      obtain ⟨hpat, hacc, hsubs, hkeys⟩ := ih
        (withPat st k0 (subNewVal s0 sub k0))
        (acc ++ [k0]) hnd.2
        (fun T hT => (hyp1 T hT).trans (hagree T (List.mem_cons_of_mem k0 hT)))
        (fun T hT => by
          unfold dictMem
          rw [hyp1 T hT]
          exact hmem T (List.mem_cons_of_mem k0 hT))
      refine ⟨?_, ?_, ?_, ?_⟩
      · intro T
        rw [List.foldl_cons, hstep, hpat T]
        by_cases hTks : T ∈ ks
        · by_cases hTm : is_matching topic T
          · rw [if_pos ⟨hTks, hTm⟩, if_pos ⟨List.mem_cons_of_mem k0 hTks, hTm⟩]
          · rw [if_neg (by simp [hTm]), if_neg (by simp [hTm])]
            exact hyp1 T hTks
        · have hne : ¬ (T ∈ ks ∧ is_matching topic T = true) := by simp [hTks]
          rw [if_neg hne]
          by_cases hTk0 : T = k0
          · subst hTk0
            rw [if_pos ⟨List.mem_cons_self _ _, hm⟩]
            exact dictGet_set_self _ _ T _ (strEq_refl T)
          · rw [if_neg (by simp [hTks, hTk0])]
            exact dictGet_set_ne _ _ k0 T _ (strEq_refl k0)
              (strIncomp (fun hk => hTk0 hk.symm))
      · rw [List.foldl_cons, hstep, hacc, List.filter_cons, if_pos (by simp [hm])]
        simp
      · rw [List.foldl_cons, hstep, hsubs]
        rfl
      · rw [List.foldl_cons, hstep, hkeys]
        exact dictKeys_set_mem _ _ k0 _ (hmem k0 (List.mem_cons_self _ _))
    · have hstep : subscribeStep topic sub (st, acc) k0 = (st, acc) := by
        unfold subscribeStep
        rw [if_neg hm]
      obtain ⟨hpat, hacc, hsubs, hkeys⟩ := ih st acc hnd.2
        (fun T hT => hagree T (List.mem_cons_of_mem k0 hT))
        (fun T hT => hmem T (List.mem_cons_of_mem k0 hT))
      refine ⟨?_, ?_, ?_, ?_⟩
      · intro T
        rw [List.foldl_cons, hstep, hpat T]
        by_cases hTks : T ∈ ks
        · by_cases hTm : is_matching topic T
          · rw [if_pos ⟨hTks, hTm⟩, if_pos ⟨List.mem_cons_of_mem k0 hTks, hTm⟩]
          · rw [if_neg (by simp [hTm]), if_neg (by simp [hTm])]
        · rw [if_neg (by simp [hTks])]
          by_cases hTk0 : T = k0
          · subst hTk0
            rw [if_neg (by simp [hm])]
          · rw [if_neg (by simp [hTks, hTk0])]
      · rw [List.foldl_cons, hstep, hacc, List.filter_cons, if_neg (by simp [hm])]
      · rw [List.foldl_cons, hstep, hsubs]
      · rw [List.foldl_cons, hstep, hkeys]

theorem subEq_false_symm {a b : Subscription} (h : subEq a b = false) :
    subEq b a = false := by
  by_cases h2 : subEq b a
  · rw [subEq_symm b a h2] at h
    exact absurd h (by simp)
  · simpa using h2

/-- The rebuilt cache entry `unsubscribe` writes for a listed topic. -/
def unsubNewVal (s0 : BusState) (sub : Subscription) (T : String) :
    List Subscription :=
  sortDesc (((dictGet (· == ·) s0.patterns T).getD []).eraseP
    (fun x => subEq x sub))

/-- Behaviour of the `unsubscribe` loop over a duplicate-free list of
topics whose cache entries still hold their original (`s0`) values. -/
theorem unsubscribe_fold (sub : Subscription) (s0 : BusState) :
    ∀ (ks : List String) (st : BusState),
      ks.Nodup →
      (∀ T ∈ ks, dictGet (· == ·) st.patterns T = dictGet (· == ·) s0.patterns T) →
      (∀ T ∈ ks, dictMem (· == ·) st.patterns T = true) →
      (∀ T, dictGet (· == ·) (ks.foldl (unsubscribeStep sub) st).patterns T =
        if T ∈ ks then some (unsubNewVal s0 sub T)
        else dictGet (· == ·) st.patterns T) ∧
      (ks.foldl (unsubscribeStep sub) st).subscriptions = st.subscriptions ∧
      dictKeys (ks.foldl (unsubscribeStep sub) st).patterns =
        dictKeys st.patterns := by
  intro ks
  induction ks with
  | nil =>
    intro st _ _ _
    refine ⟨fun T => by simp, rfl, rfl⟩
  | cons k0 ks ih =>
    intro st hnd hagree hmem
    rw [List.nodup_cons] at hnd
    have hstep : unsubscribeStep sub st k0 = withPat st k0 (unsubNewVal s0 sub k0) := by
      unfold unsubscribeStep withPat unsubNewVal
      rw [hagree k0 (List.mem_cons_self _ _)]
    have hyp1 : ∀ T ∈ ks,
        dictGet (· == ·) (withPat st k0 (unsubNewVal s0 sub k0)).patterns T =
          dictGet (· == ·) st.patterns T := by
      intro T hT
      exact dictGet_set_ne _ _ k0 T _ (strEq_refl k0)
        (strIncomp (fun hk => hnd.1 (hk ▸ hT)))
    obtain ⟨hpat, hsubs, hkeys⟩ := ih (withPat st k0 (unsubNewVal s0 sub k0)) hnd.2
      (fun T hT => (hyp1 T hT).trans (hagree T (List.mem_cons_of_mem k0 hT)))
      (fun T hT => by
        unfold dictMem
        rw [hyp1 T hT]
        exact hmem T (List.mem_cons_of_mem k0 hT))
    refine ⟨?_, ?_, ?_⟩
    · intro T
      rw [List.foldl_cons, hstep, hpat T]
      by_cases hTks : T ∈ ks
      · rw [if_pos hTks, if_pos (List.mem_cons_of_mem k0 hTks)]
      · rw [if_neg hTks]
        by_cases hTk0 : T = k0
        · subst hTk0
          rw [if_pos (List.mem_cons_self _ _)]
          exact dictGet_set_self _ _ T _ (strEq_refl T)
        · rw [if_neg (by simp [hTks, hTk0])]
          exact dictGet_set_ne _ _ k0 T _ (strEq_refl k0)
            (strIncomp (fun hk => hTk0 hk.symm))
    · rw [List.foldl_cons, hstep, hsubs]
      rfl
    · rw [List.foldl_cons, hstep, hkeys]
      exact dictKeys_set_mem _ _ k0 _ (hmem k0 (List.mem_cons_self _ _))

/-- The rebuilt index entry `_resolve_subscriptions` writes for a
matching subscription. -/
def resNewVal (s0 : BusState) (topic : String) (y : Subscription) :
    List String :=
  sortStr
    (if topic ∈ (dictGet subEq s0.subscriptions y).getD []
      then (dictGet subEq s0.subscriptions y).getD []
      else (dictGet subEq s0.subscriptions y).getD [] ++ [topic])

/-- A state with one index entry rewritten (helper for fold lemmas). -/
def withSub (st : BusState) (k : Subscription) (v : List String) : BusState :=
  { st with subscriptions := dictSet subEq st.subscriptions k v }

/-- Behaviour of the `_resolve_subscriptions` loop over a list of
pairwise-distinct subscriptions whose index entries still hold their
original (`s0`) values. -/
theorem resolve_fold (topic : String) (s0 : BusState) :
    ∀ (ys : List Subscription) (st : BusState),
      ys.Pairwise (fun a b => subEq a b = false) →
      (∀ y ∈ ys, dictGet subEq st.subscriptions y =
        dictGet subEq s0.subscriptions y) →
      (∀ y ∈ ys, dictMem subEq st.subscriptions y = true) →
      (∀ y ∈ ys, dictGet subEq
          (ys.foldl (resolveStep topic) st).subscriptions y =
        some (resNewVal s0 topic y)) ∧
      (∀ x, (∀ y ∈ ys, subEq y x = false) →
        dictGet subEq (ys.foldl (resolveStep topic) st).subscriptions x =
          dictGet subEq st.subscriptions x) ∧
      (ys.foldl (resolveStep topic) st).patterns = st.patterns ∧
      dictKeys (ys.foldl (resolveStep topic) st).subscriptions =
        dictKeys st.subscriptions := by
  intro ys
  induction ys with
  | nil =>
    intro st _ _ _
    refine ⟨by simp, fun x _ => rfl, rfl, rfl⟩
  | cons y0 ys ih =>
    intro st hnd hagree hmem
    rw [List.pairwise_cons] at hnd
    have hstep : resolveStep topic st y0 = withSub st y0 (resNewVal s0 topic y0) := by
      unfold resolveStep withSub resNewVal
      rw [hagree y0 (List.mem_cons_self _ _)]
    have hyp1 : ∀ y ∈ ys,
        dictGet subEq (withSub st y0 (resNewVal s0 topic y0)).subscriptions y =
          dictGet subEq st.subscriptions y := by
      intro y hy
      exact dictGet_set_ne _ _ y0 y _ (subEq_refl y0)
        (subIncomp (subEq_false_symm (hnd.1 y hy)))
    obtain ⟨hsame, hother, hpats, hkeys⟩ := ih
      (withSub st y0 (resNewVal s0 topic y0)) hnd.2
      (fun y hy => (hyp1 y hy).trans (hagree y (List.mem_cons_of_mem y0 hy)))
      (fun y hy => by
        unfold dictMem
        rw [hyp1 y hy]
        exact hmem y (List.mem_cons_of_mem y0 hy))
    refine ⟨?_, ?_, ?_, ?_⟩
    · intro y hy
      rcases List.mem_cons.mp hy with rfl | hy2
      · rw [List.foldl_cons, hstep,
          hother y (fun z hz => subEq_false_symm (hnd.1 z hz))]
        exact dictGet_set_self _ _ y _ (subEq_refl y)
      · rw [List.foldl_cons, hstep]
        exact hsame y hy2
    · intro x hx
      rw [List.foldl_cons, hstep,
        hother x (fun z hz => hx z (List.mem_cons_of_mem y0 hz))]
      exact dictGet_set_ne _ _ y0 x _ (subEq_refl y0)
        (subIncomp (subEq_false_symm (hx y0 (List.mem_cons_self _ _))))
    · rw [List.foldl_cons, hstep, hpats]
      rfl
    · rw [List.foldl_cons, hstep, hkeys]
      exact dictKeys_set_mem _ _ y0 _ (hmem y0 (List.mem_cons_self _ _))

/-! ## The data-model invariant

Invariants I1/I2-adjacent structural facts that hold in every reachable
bus state: dictionary keys are duplicate-free, cached arrays are
priority-sorted, every priority class of a cached array is an ordered
subsequence of the subscription-index keys (registration order), and
the cache and the index cross-reference each other. -/

structure Inv (s : BusState) : Prop where
  patNodup : (dictKeys s.patterns).Nodup
  subNodup : (dictKeys s.subscriptions).Pairwise (fun a b => subEq a b = false)
  topNodup : ∀ x ts, dictGet subEq s.subscriptions x = some ts → ts.Nodup
  cacheNodup : ∀ T l, dictGet (· == ·) s.patterns T = some l →
    l.Pairwise (fun a b => subEq a b = false)
  sorted : ∀ T l, dictGet (· == ·) s.patterns T = some l →
    l.Pairwise (fun a b => b.priority ≤ a.priority)
  stable : ∀ T l, dictGet (· == ·) s.patterns T = some l → ∀ p : Int,
    List.Sublist (l.filter (fun x => decide (x.priority = p)))
      ((dictKeys s.subscriptions).filter (fun x => decide (x.priority = p)))
  inIdx : ∀ T l, dictGet (· == ·) s.patterns T = some l → ∀ x ∈ l,
    ∃ ts, dictGet subEq s.subscriptions x = some ts ∧ T ∈ ts
  idxTop : ∀ x ts, dictGet subEq s.subscriptions x = some ts → ∀ T ∈ ts,
    ∃ l, dictGet (· == ·) s.patterns T = some l ∧ ∃ y ∈ l, subEq y x = true

theorem inv_of_eq (s s' : BusState) (hp : s'.patterns = s.patterns)
    (hsub : s'.subscriptions = s.subscriptions) (hi : Inv s) : Inv s' := by
  obtain ⟨a1, a2, a3, a4, a5, a6, a7, a8⟩ := hi
  refine ⟨?_, ?_, ?_, ?_, ?_, ?_, ?_, ?_⟩ <;>
    simp only [hp, hsub] <;>
    first
      | exact a1
      | exact a2
      | exact a3
      | exact a4
      | exact a5
      | exact a6
      | exact a7
      | exact a8

theorem dictMem_of_mem_keys {κ β : Type} (eq : κ → κ → Bool)
    (l : List (κ × β)) (k : κ) (hrefl : ∀ a, eq a a = true)
    (h : k ∈ dictKeys l) : dictMem eq l k = true := by
  induction l with
  | nil => simp [dictKeys] at h
  | cons kv l ih =>
    rw [dictMem_cons]
    rcases List.mem_cons.mp h with rfl | h2
    · simp [hrefl]
    · simp [ih h2]

theorem inv_initBus (E : List Nat) (db : Bool) (ser : Option (Msg → List Nat))
    (tf : Option (List Nat)) : Inv (initBus E db ser tf) := by
  refine ⟨?_, ?_, ?_, ?_, ?_, ?_, ?_, ?_⟩ <;>
    simp [initBus, dictKeys, dictGet_nil]

theorem inv_register {s s' : BusState} {e : String} {h : Nat}
    (hr : register s e h = .ok s') (hi : Inv s) : Inv s' := by
  unfold register at hr
  split at hr
  · exact absurd hr (by simp)
  · split at hr
    · exact absurd hr (by simp)
    · cases hr
      exact inv_of_eq s _ rfl rfl hi

theorem inv_deregister {s s' : BusState} {e : String} {h : Nat}
    (hr : deregister s e h = .ok s') (hi : Inv s) : Inv s' := by
  unfold deregister at hr
  split at hr
  · exact absurd hr (by simp)
  · split at hr
    · exact absurd hr (by simp)
    · split at hr
      · exact absurd hr (by simp)
      · cases hr
        exact inv_of_eq s _ rfl rfl hi

theorem inv_send {s s' : BusState} {e : String} {m : Msg}
    {ev : List (Nat × Msg)} (hr : send s e m = .ok (s', ev)) (hi : Inv s) :
    Inv s' := by
  unfold send at hr
  split at hr
  · cases hr
    exact inv_of_eq s _ rfl rfl hi
  · cases hr
    exact inv_of_eq s _ rfl rfl hi

theorem inv_request {s s' : BusState} {e : String} {r : Request}
    {ev : List (Nat × Request)} (hr : request s e r = .ok (s', ev))
    (hi : Inv s) : Inv s' := by
  unfold request at hr
  split at hr
  · cases hr
    exact inv_of_eq s _ rfl rfl hi
  · dsimp only at hr
    split at hr
    · cases hr
      exact inv_of_eq s _ rfl rfl hi
    · cases hr
      exact inv_of_eq s _ rfl rfl hi

theorem inv_response_pop {s : BusState} (r : Response) (hi : Inv s) :
    Inv (response_pop s r).1 := by
  unfold response_pop
  split
  · exact hi
  · exact inv_of_eq s _ rfl rfl hi

theorem inv_response {s : BusState} (r : Response) (hi : Inv s) :
    Inv (response s r).1 := by
  unfold response
  have h1 : Inv (response_pop s r).1 := inv_response_pop r hi
  match hp : response_pop s r with
  | (s1, none) =>
    rw [hp] at h1
    exact h1
  | (s1, some cb) =>
    rw [hp] at h1
    exact inv_of_eq s1 _ rfl rfl h1

theorem dictGet_some_of_mem_keys {κ β : Type} (eq : κ → κ → Bool)
    (l : List (κ × β)) (k : κ) (hrefl : ∀ a, eq a a = true)
    (h : k ∈ dictKeys l) : ∃ v, dictGet eq l k = some v := by
  have hm := dictMem_of_mem_keys eq l k hrefl h
  unfold dictMem at hm
  exact Option.isSome_iff_exists.mp hm

theorem pairwise_subEq_unique {l : List Subscription}
    (h : l.Pairwise (fun a b => subEq a b = false)) {x y : Subscription}
    (hx : x ∈ l) (hy : y ∈ l) (hxy : subEq x y = true) : x = y := by
  induction l with
  | nil => simp at hx
  | cons a l ih =>
    rw [List.pairwise_cons] at h
    rcases List.mem_cons.mp hx with rfl | hx2
    · rcases List.mem_cons.mp hy with rfl | hy2
      · rfl
      · have hf := h.1 y hy2
        rw [hxy] at hf
        exact absurd hf (by simp)
    · rcases List.mem_cons.mp hy with rfl | hy2
      · have hf := h.1 x hx2
        rw [subEq_symm x y hxy] at hf
        exact absurd hf (by simp)
      · exact ih h.2 hx2 hy2

/-- Every element of a cached array is a key of the subscription index
(a consequence of the `stable` invariant). -/
theorem mem_keys_of_cached {s : BusState} (hi : Inv s) {T : String}
    {l : List Subscription} (hT : dictGet (· == ·) s.patterns T = some l)
    {x : Subscription} (hx : x ∈ l) : x ∈ dictKeys s.subscriptions := by
  have h1 := hi.stable T l hT x.priority
  have h2 : x ∈ l.filter (fun y => decide (y.priority = x.priority)) :=
    List.mem_filter.mpr ⟨hx, by simp⟩
  exact (List.mem_filter.mp (h1.subset h2)).1

/-- A subscription absent from the index occurs in no cached array. -/
theorem cached_no_match {s : BusState} (hi : Inv s) {sub : Subscription}
    (hmemF : ¬ dictMem subEq s.subscriptions sub = true) {T : String}
    {l : List Subscription} (hT : dictGet (· == ·) s.patterns T = some l) :
    ∀ x ∈ l, subEq x sub = false := by
  intro x hx
  by_cases hxs : subEq x sub
  · obtain ⟨ts, hts, _⟩ := hi.inIdx T l hT x hx
    have hsub : dictGet subEq s.subscriptions sub = some ts := by
      rw [← hts]
      exact dictGet_congr subEq _ sub x (subEq_symm x sub hxs) subEq_symm
        subEq_trans
    exact absurd (by simp [dictMem, hsub]) hmemF
  · simpa using hxs

theorem inv_subscribe {s s' : BusState} {topic : String} {handler : Nat}
    {priority : Int} (hr : subscribe s topic handler priority = .ok s')
    (hi : Inv s) : Inv s' := by
  unfold subscribe at hr
  split at hr
  · exact absurd hr (by simp)
  split at hr
  · exact absurd hr (by simp)
  dsimp only at hr
  split at hr
  case isTrue => cases hr; exact hi
  case isFalse hguard =>
  cases hr
  obtain ⟨hpat, hacc, hsubs, hkeys⟩ := subscribe_fold topic
    ⟨topic, handler, priority⟩ s (dictKeys s.patterns) s []
    hi.patNodup (fun T _ => rfl)
    (fun T hT => dictMem_of_mem_keys _ _ _ strEq_refl hT)
  rw [List.nil_append] at hacc
  have hguardF : dictMem subEq s.subscriptions ⟨topic, handler, priority⟩ =
      false := by simpa using hguard
  have hcross : ∀ a ∈ dictKeys s.subscriptions,
      subEq a ⟨topic, handler, priority⟩ = false := by
    intro a ha
    obtain ⟨kv, hkv, rfl⟩ := List.mem_map.mp ha
    exact (dictMem_false_iff subEq s.subscriptions _).mp hguardF kv hkv
  have hFnodup : ((dictKeys s.patterns).filter
      (fun T => is_matching topic T)).Nodup := hi.patNodup.filter _
  refine ⟨?_, ?_, ?_, ?_, ?_, ?_, ?_, ?_⟩ <;> dsimp only
  · rw [hkeys]
    exact hi.patNodup
  · rw [hsubs, hacc, dictKeys_set_new subEq s.subscriptions _ _ hguardF,
      List.pairwise_append]
    refine ⟨hi.subNodup, by simp, ?_⟩
    intro a ha b hb
    rcases List.mem_singleton.mp hb with rfl
    exact hcross a ha
  · rw [hsubs, hacc]
    intro x ts hts
    by_cases hx : subEq x ⟨topic, handler, priority⟩
    · rw [dictGet_congr subEq _ x _ hx subEq_symm subEq_trans,
        dictGet_set_self subEq _ _ _ (subEq_refl _)] at hts
      cases hts
      exact sortStr_nodup hFnodup
    · rw [dictGet_set_ne subEq _ _ x _ (subEq_refl _)
        (subIncomp (by simpa using hx))] at hts
      exact hi.topNodup x ts hts
  · intro T l hTl
    rw [hpat T] at hTl
    by_cases hc : T ∈ dictKeys s.patterns ∧ is_matching topic T = true
    · rw [if_pos hc] at hTl
      cases hTl
      obtain ⟨lT, hgT⟩ := dictGet_some_of_mem_keys _ _ _ strEq_refl hc.1
      unfold subNewVal
      rw [hgT]
      refine sortDesc_pairwise (fun a b hab => subEq_false_symm hab) ?_
      rw [List.pairwise_append]
      refine ⟨hi.cacheNodup T lT hgT, by simp, ?_⟩
      intro a ha b hb
      rcases List.mem_singleton.mp hb with rfl
      exact cached_no_match hi hguard hgT a ha
    · rw [if_neg hc] at hTl
      exact hi.cacheNodup T l hTl
  · intro T l hTl
    rw [hpat T] at hTl
    by_cases hc : T ∈ dictKeys s.patterns ∧ is_matching topic T = true
    · rw [if_pos hc] at hTl
      cases hTl
      exact sortDesc_sorted _
    · rw [if_neg hc] at hTl
      exact hi.sorted T l hTl
  · rw [hsubs, hacc, dictKeys_set_new subEq s.subscriptions _ _ hguardF]
    intro T l hTl p
    rw [hpat T] at hTl
    rw [List.filter_append]
    by_cases hc : T ∈ dictKeys s.patterns ∧ is_matching topic T = true
    · rw [if_pos hc] at hTl
      cases hTl
      obtain ⟨lT, hgT⟩ := dictGet_some_of_mem_keys _ _ _ strEq_refl hc.1
      unfold subNewVal
      rw [hgT]
      show List.Sublist (List.filter _ (sortDesc (lT ++ _))) _
      rw [filter_sortDesc, List.filter_append]
      exact List.Sublist.append (hi.stable T lT hgT p) (List.Sublist.refl _)
    · rw [if_neg hc] at hTl
      exact (hi.stable T l hTl p).trans (List.sublist_append_left _ _)
  · rw [hsubs, hacc]
    intro T l hTl x hx
    rw [hpat T] at hTl
    by_cases hc : T ∈ dictKeys s.patterns ∧ is_matching topic T = true
    · rw [if_pos hc] at hTl
      cases hTl
      obtain ⟨lT, hgT⟩ := dictGet_some_of_mem_keys _ _ _ strEq_refl hc.1
      unfold subNewVal at hx
      rw [hgT] at hx
      rcases List.mem_append.mp (sortDesc_mem.mp hx) with hx2 | hx2
      · have hxs : subEq x ⟨topic, handler, priority⟩ = false :=
          cached_no_match hi hguard hgT x hx2
        obtain ⟨ts, hts, hmemT⟩ := hi.inIdx T lT hgT x hx2
        refine ⟨ts, ?_, hmemT⟩
        rw [dictGet_set_ne subEq _ _ x _ (subEq_refl _) (subIncomp hxs)]
        exact hts
      · rcases List.mem_singleton.mp hx2 with rfl
        refine ⟨_, dictGet_set_self subEq _ _ _ (subEq_refl _), ?_⟩
        rw [sortStr_mem]
        exact List.mem_filter.mpr ⟨hc.1, hc.2⟩
    · rw [if_neg hc] at hTl
      have hxs : subEq x ⟨topic, handler, priority⟩ = false :=
        cached_no_match hi hguard hTl x hx
      obtain ⟨ts, hts, hmemT⟩ := hi.inIdx T l hTl x hx
      refine ⟨ts, ?_, hmemT⟩
      rw [dictGet_set_ne subEq _ _ x _ (subEq_refl _) (subIncomp hxs)]
      exact hts
  · rw [hsubs, hacc]
    intro x ts hts T hT
    by_cases hx : subEq x ⟨topic, handler, priority⟩
    · rw [dictGet_congr subEq _ x _ hx subEq_symm subEq_trans,
        dictGet_set_self subEq _ _ _ (subEq_refl _)] at hts
      cases hts
      rw [sortStr_mem] at hT
      have hTm := List.mem_filter.mp hT
      refine ⟨subNewVal s ⟨topic, handler, priority⟩ T, ?_, ?_⟩
      · rw [hpat T, if_pos ⟨hTm.1, hTm.2⟩]
      · obtain ⟨lT, hgT⟩ := dictGet_some_of_mem_keys _ _ _ strEq_refl hTm.1
        refine ⟨⟨topic, handler, priority⟩, ?_, subEq_symm x _ hx⟩
        unfold subNewVal
        rw [hgT, sortDesc_mem]
        simp
    · rw [dictGet_set_ne subEq _ _ x _ (subEq_refl _)
        (subIncomp (by simpa using hx))] at hts
      obtain ⟨l, hl, y, hy, hyx⟩ := hi.idxTop x ts hts T hT
      rw [hpat T]
      by_cases hc : T ∈ dictKeys s.patterns ∧ is_matching topic T = true
      · refine ⟨subNewVal s ⟨topic, handler, priority⟩ T, by rw [if_pos hc], ?_⟩
        refine ⟨y, ?_, hyx⟩
        unfold subNewVal
        rw [hl, sortDesc_mem]
        exact List.mem_append_left _ hy
      · exact ⟨l, by rw [if_neg hc]; exact hl, y, hy, hyx⟩

theorem resNewVal_nodup {s : BusState} (hi : Inv s) (topic : String)
    (y : Subscription) : (resNewVal s topic y).Nodup := by
  unfold resNewVal
  apply sortStr_nodup
  cases hg : dictGet subEq s.subscriptions y with
  | none => simp
  | some ms =>
    have hnd := hi.topNodup y ms hg
    simp only [Option.getD_some]
    by_cases hm : topic ∈ ms
    · rw [if_pos hm]
      exact hnd
    · rw [if_neg hm, List.nodup_append]
      refine ⟨hnd, by simp, ?_⟩
      intro a ha hb
      rcases List.mem_singleton.mp hb with rfl
      exact hm ha

theorem topic_mem_resNewVal (s : BusState) (topic : String) (y : Subscription) :
    topic ∈ resNewVal s topic y := by
  unfold resNewVal
  rw [sortStr_mem]
  by_cases hm : topic ∈ (dictGet subEq s.subscriptions y).getD []
  · rw [if_pos hm]
    exact hm
  · rw [if_neg hm]
    simp

theorem mem_resNewVal_of_mem {s : BusState} {topic T : String}
    {y : Subscription} (h : T ∈ (dictGet subEq s.subscriptions y).getD []) :
    T ∈ resNewVal s topic y := by
  unfold resNewVal
  rw [sortStr_mem]
  by_cases hm : topic ∈ (dictGet subEq s.subscriptions y).getD []
  · rw [if_pos hm]
    exact h
  · rw [if_neg hm]
    exact List.mem_append_left _ h

theorem mem_resNewVal_elim {s : BusState} {topic T : String}
    {y : Subscription} (h : T ∈ resNewVal s topic y) :
    T = topic ∨ T ∈ (dictGet subEq s.subscriptions y).getD [] := by
  unfold resNewVal at h
  rw [sortStr_mem] at h
  by_cases hm : topic ∈ (dictGet subEq s.subscriptions y).getD []
  · rw [if_pos hm] at h
    exact Or.inr h
  · rw [if_neg hm] at h
    rcases List.mem_append.mp h with h2 | h2
    · exact Or.inr h2
    · exact Or.inl (List.mem_singleton.mp h2)

theorem inv_resolve {s : BusState} (topic : String) (hi : Inv s)
    (hmiss : dictGet (· == ·) s.patterns topic = none) :
    Inv (resolve_subscriptions s topic).1 := by
  unfold resolve_subscriptions
  dsimp only
  have hYSpair : (sortDesc ((dictKeys s.subscriptions).filter
      (fun sub => is_matching topic sub.topic))).Pairwise
      (fun a b => subEq a b = false) :=
    sortDesc_pairwise (fun a b hab => subEq_false_symm hab)
      (hi.subNodup.filter _)
  have hYSkeys : ∀ y ∈ sortDesc ((dictKeys s.subscriptions).filter
      (fun sub => is_matching topic sub.topic)), y ∈ dictKeys s.subscriptions :=
    fun y hy => (List.mem_filter.mp (sortDesc_mem.mp hy)).1
  obtain ⟨hsame, hother, hpats2, hkeys2⟩ := resolve_fold topic s
    (sortDesc ((dictKeys s.subscriptions).filter
      (fun sub => is_matching topic sub.topic)))
    { s with patterns := (dictSet (· == ·) s.patterns topic
        (sortDesc ((dictKeys s.subscriptions).filter
          (fun sub => is_matching topic sub.topic)))) }
    hYSpair (fun y _ => rfl)
    (fun y hy => dictMem_of_mem_keys subEq _ _ subEq_refl (hYSkeys y hy))
  have hmemP : dictMem (· == ·) s.patterns topic = false := by
    simp [dictMem, hmiss]
  have htopic_notin : topic ∉ dictKeys s.patterns := by
    intro hmem
    exact absurd (dictMem_of_mem_keys _ _ _ strEq_refl hmem) (by simp [hmemP])
  have hgetPat : ∀ T, ¬ T = topic →
      dictGet (· == ·) (dictSet (· == ·) s.patterns topic
        (sortDesc ((dictKeys s.subscriptions).filter
          (fun sub => is_matching topic sub.topic)))) T =
      dictGet (· == ·) s.patterns T := by
    intro T hT
    exact dictGet_set_ne _ _ topic T _ (strEq_refl topic)
      (strIncomp (fun h => hT h.symm))
  have hgetPatTopic : dictGet (· == ·) (dictSet (· == ·) s.patterns topic
      (sortDesc ((dictKeys s.subscriptions).filter
        (fun sub => is_matching topic sub.topic)))) topic =
      some (sortDesc ((dictKeys s.subscriptions).filter
        (fun sub => is_matching topic sub.topic))) :=
    dictGet_set_self _ _ _ _ (strEq_refl topic)
  refine ⟨?_, ?_, ?_, ?_, ?_, ?_, ?_, ?_⟩ <;> (try rw [hpats2]) <;>
    (try rw [hkeys2])
  · rw [dictKeys_set_new _ _ _ _ hmemP, List.nodup_append]
    refine ⟨hi.patNodup, by simp, ?_⟩
    intro a ha hb
    rcases List.mem_singleton.mp hb with rfl
    exact htopic_notin ha
  · exact hi.subNodup
  · intro x ts hts
    by_cases hex : ∃ y ∈ sortDesc ((dictKeys s.subscriptions).filter
        (fun sub => is_matching topic sub.topic)), subEq y x = true
    · obtain ⟨y, hyYS, hyx⟩ := hex
      rw [dictGet_congr subEq _ x y (subEq_symm y x hyx) subEq_symm subEq_trans,
        hsame y hyYS] at hts
      cases hts
      exact resNewVal_nodup hi topic y
    · rw [hother x (fun y hy => by
        by_cases h2 : subEq y x
        · exact absurd ⟨y, hy, h2⟩ hex
        · simpa using h2)] at hts
      exact hi.topNodup x ts hts
  · intro T l hTl
    by_cases hTt : T = topic
    · subst hTt
      rw [hgetPatTopic] at hTl
      cases hTl
      exact hYSpair
    · rw [hgetPat T hTt] at hTl
      exact hi.cacheNodup T l hTl
  · intro T l hTl
    by_cases hTt : T = topic
    · subst hTt
      rw [hgetPatTopic] at hTl
      cases hTl
      exact sortDesc_sorted _
    · rw [hgetPat T hTt] at hTl
      exact hi.sorted T l hTl
  · intro T l hTl p
    by_cases hTt : T = topic
    · subst hTt
      rw [hgetPatTopic] at hTl
      cases hTl
      rw [filter_sortDesc]
      exact (List.filter_sublist _).filter _
    · rw [hgetPat T hTt] at hTl
      exact hi.stable T l hTl p
  · intro T l hTl x hx
    by_cases hTt : T = topic
    · subst hTt
      rw [hgetPatTopic] at hTl
      cases hTl
      exact ⟨resNewVal s T x, hsame x hx, topic_mem_resNewVal s T x⟩
    · rw [hgetPat T hTt] at hTl
      obtain ⟨ts, hts, hmemT⟩ := hi.inIdx T l hTl x hx
      by_cases hex : ∃ y ∈ sortDesc ((dictKeys s.subscriptions).filter
          (fun sub => is_matching topic sub.topic)), subEq y x = true
      · obtain ⟨y, hyYS, hyx⟩ := hex
        refine ⟨resNewVal s topic y, ?_, ?_⟩
        · rw [dictGet_congr subEq _ x y (subEq_symm y x hyx) subEq_symm
            subEq_trans]
          exact hsame y hyYS
        · apply mem_resNewVal_of_mem
          rw [dictGet_congr subEq _ y x hyx subEq_symm subEq_trans, hts]
          exact hmemT
      · refine ⟨ts, ?_, hmemT⟩
        rw [hother x (fun y hy => by
          by_cases h2 : subEq y x
          · exact absurd ⟨y, hy, h2⟩ hex
          · simpa using h2)]
        exact hts
  · intro x ts hts T hT
    by_cases hex : ∃ y ∈ sortDesc ((dictKeys s.subscriptions).filter
        (fun sub => is_matching topic sub.topic)), subEq y x = true
    · obtain ⟨y, hyYS, hyx⟩ := hex
      rw [dictGet_congr subEq _ x y (subEq_symm y x hyx) subEq_symm subEq_trans,
        hsame y hyYS] at hts
      cases hts
      by_cases hTt : T = topic
      · subst hTt
        exact ⟨_, hgetPatTopic, y, hyYS, hyx⟩
      · rcases mem_resNewVal_elim hT with h2 | h2
        · exact absurd h2 hTt
        · cases hg : dictGet subEq s.subscriptions y with
          | none => rw [hg] at h2; simp at h2
          | some ms =>
            rw [hg] at h2
            simp only [Option.getD_some] at h2
            obtain ⟨l, hl, y', hy', hy'y⟩ := hi.idxTop y ms hg T h2
            refine ⟨l, ?_, y', hy', subEq_trans y' y x hy'y hyx⟩
            rw [hgetPat T hTt]
            exact hl
    · rw [hother x (fun y hy => by
        by_cases h2 : subEq y x
        · exact absurd ⟨y, hy, h2⟩ hex
        · simpa using h2)] at hts
      obtain ⟨l, hl, y, hy, hyx2⟩ := hi.idxTop x ts hts T hT
      have hTt : ¬ T = topic := by
        intro h
        rw [h, hmiss] at hl
        cases hl
      refine ⟨l, ?_, y, hy, hyx2⟩
      rw [hgetPat T hTt]
      exact hl

theorem inv_unsubscribe {s s' : BusState} {topic : String} {handler : Nat}
    (hr : unsubscribe s topic handler = .ok s') (hi : Inv s) : Inv s' := by
  unfold unsubscribe at hr
  split at hr
  · exact absurd hr (by simp)
  dsimp only at hr
  split at hr
  case h_1 => cases hr; exact hi
  case h_2 pats hfound =>
  cases hr
  obtain ⟨hpat, hsubs1, hkeys1⟩ := unsubscribe_fold ⟨topic, handler, 0⟩ s pats s
    (hi.topNodup _ pats hfound) (fun T _ => rfl)
    (fun T hT => by
      obtain ⟨l, hl, _⟩ := hi.idxTop _ pats hfound T hT
      simp [dictMem, hl])
  obtain ⟨ystar, hymem, hyeq, hypair⟩ :=
    dictGet_some_mem_keys subEq s.subscriptions _ pats hfound
  have hkeyuniq : ∀ k ∈ dictKeys s.subscriptions,
      subEq k ⟨topic, handler, 0⟩ = true → k = ystar := by
    intro k hk hks
    exact pairwise_subEq_unique hi.subNodup hk hymem
      (subEq_trans k _ ystar hks (subEq_symm ystar _ hyeq))
  have hcacheuniq : ∀ T l, dictGet (· == ·) s.patterns T = some l →
      ∀ x ∈ l, subEq x ⟨topic, handler, 0⟩ = true → x = ystar := by
    intro T l hTl x hx hxs
    exact hkeyuniq x (mem_keys_of_cached hi hTl hx) hxs
  have hlisted : ∀ T ∈ pats, ∃ l,
      dictGet (· == ·) s.patterns T = some l ∧ ystar ∈ l := by
    intro T hT
    obtain ⟨l, hl, y, hy, hysub⟩ := hi.idxTop _ pats hfound T hT
    have : y = ystar := hcacheuniq T l hl y hy hysub
    exact ⟨l, hl, this ▸ hy⟩
  have hunlisted : ∀ T l, dictGet (· == ·) s.patterns T = some l → T ∉ pats →
      ∀ x ∈ l, subEq x ⟨topic, handler, 0⟩ = false := by
    intro T l hTl hTn x hx
    by_cases hxs : subEq x ⟨topic, handler, 0⟩
    · obtain ⟨ts, hts, hmemT⟩ := hi.inIdx T l hTl x hx
      have hts2 : dictGet subEq s.subscriptions ⟨topic, handler, 0⟩ = some ts := by
        rw [← hts]
        exact dictGet_congr subEq _ _ x (subEq_symm x _ hxs) subEq_symm subEq_trans
      rw [hfound] at hts2
      cases hts2
      exact absurd hmemT hTn
    · simpa using hxs
  have hdelkeys : dictKeys (dictDel subEq s.subscriptions ⟨topic, handler, 0⟩) =
      (dictKeys s.subscriptions).eraseP
        (fun y => subEq y ⟨topic, handler, 0⟩) := by
    unfold dictDel dictKeys
    rw [List.eraseP_map]
    rfl
  have hdel_ne : ∀ x, subEq x ⟨topic, handler, 0⟩ = false →
      dictGet subEq (dictDel subEq s.subscriptions ⟨topic, handler, 0⟩) x =
        dictGet subEq s.subscriptions x := by
    intro x hx
    exact dictGet_del_ne subEq _ _ x (subIncomp hx)
  have hdel_match : ∀ x, subEq x ⟨topic, handler, 0⟩ = true →
      dictGet subEq (dictDel subEq s.subscriptions ⟨topic, handler, 0⟩) x =
        none := by
    intro x hx
    rw [dictGet_congr subEq _ x _ hx subEq_symm subEq_trans]
    exact dictGet_del_self subEq _ _ subEq_symm subEq_trans hi.subNodup
  refine ⟨?_, ?_, ?_, ?_, ?_, ?_, ?_, ?_⟩ <;> dsimp only <;>
    (try rw [hsubs1]) <;> (try rw [hkeys1])
  · exact hi.patNodup
  · rw [hdelkeys]
    exact List.Pairwise.sublist (List.eraseP_sublist _) hi.subNodup
  · intro x ts hts
    by_cases hx : subEq x ⟨topic, handler, 0⟩
    · rw [hdel_match x hx] at hts
      cases hts
    · rw [hdel_ne x (by simpa using hx)] at hts
      exact hi.topNodup x ts hts
  · intro T l hTl
    rw [hpat T] at hTl
    by_cases hc : T ∈ pats
    · rw [if_pos hc] at hTl
      cases hTl
      obtain ⟨lT, hgT, _⟩ := hlisted T hc
      unfold unsubNewVal
      rw [hgT]
      exact sortDesc_pairwise (fun a b hab => subEq_false_symm hab)
        (List.Pairwise.sublist (List.eraseP_sublist _) (hi.cacheNodup T lT hgT))
    · rw [if_neg hc] at hTl
      exact hi.cacheNodup T l hTl
  · intro T l hTl
    rw [hpat T] at hTl
    by_cases hc : T ∈ pats
    · rw [if_pos hc] at hTl
      cases hTl
      exact sortDesc_sorted _
    · rw [if_neg hc] at hTl
      exact hi.sorted T l hTl
  · rw [hdelkeys]
    intro T l hTl p
    rw [hpat T] at hTl
    by_cases hc : T ∈ pats
    · rw [if_pos hc] at hTl
      cases hTl
      obtain ⟨lT, hgT, _⟩ := hlisted T hc
      unfold unsubNewVal
      rw [hgT]
      simp only [Option.getD_some]
      show List.Sublist (List.filter _ (sortDesc _)) _
      rw [filter_sortDesc]
      by_cases hyp : ystar.priority = p
      · rw [filter_eraseP_comm lT _ _ (fun x hx hqx => by
            rw [hcacheuniq T lT hgT x hx hqx]
            simp [hyp]),
          filter_eraseP_comm (dictKeys s.subscriptions) _ _ (fun k hk hqk => by
            rw [hkeyuniq k hk hqk]
            simp [hyp])]
        exact List.Sublist.eraseP (hi.stable T lT hgT p)
      · rw [filter_eraseP_no lT _ _ (fun x hx hqx => by
            rw [hcacheuniq T lT hgT x hx hqx]
            simp [hyp]),
          filter_eraseP_no (dictKeys s.subscriptions) _ _ (fun k hk hqk => by
            rw [hkeyuniq k hk hqk]
            simp [hyp])]
        exact hi.stable T lT hgT p
    · rw [if_neg hc] at hTl
      by_cases hyp : ystar.priority = p
      · rw [filter_eraseP_comm (dictKeys s.subscriptions) _ _ (fun k hk hqk => by
            rw [hkeyuniq k hk hqk]
            simp [hyp])]
        refine sublist_eraseP_of_no _ (hi.stable T l hTl p) ?_
        intro x hx
        exact hunlisted T l hTl hc x (List.mem_filter.mp hx).1
      · rw [filter_eraseP_no (dictKeys s.subscriptions) _ _ (fun k hk hqk => by
            rw [hkeyuniq k hk hqk]
            simp [hyp])]
        exact hi.stable T l hTl p
  · intro T l hTl x hx
    rw [hpat T] at hTl
    by_cases hc : T ∈ pats
    · rw [if_pos hc] at hTl
      cases hTl
      obtain ⟨lT, hgT, _⟩ := hlisted T hc
      unfold unsubNewVal at hx
      rw [hgT] at hx
      have hx2 := sortDesc_mem.mp hx
      have hxq : subEq x ⟨topic, handler, 0⟩ = false :=
        mem_eraseP_key (fun z => z) lT _ (hi.cacheNodup T lT hgT) x hx2
      have hx3 : x ∈ lT := List.mem_of_mem_eraseP hx2
      obtain ⟨ts, hts, hmemT⟩ := hi.inIdx T lT hgT x hx3
      refine ⟨ts, ?_, hmemT⟩
      rw [hdel_ne x hxq]
      exact hts
    · rw [if_neg hc] at hTl
      have hxq := hunlisted T l hTl hc x hx
      obtain ⟨ts, hts, hmemT⟩ := hi.inIdx T l hTl x hx
      refine ⟨ts, ?_, hmemT⟩
      rw [hdel_ne x hxq]
      exact hts
  · intro x ts hts T hT
    by_cases hx : subEq x ⟨topic, handler, 0⟩
    · rw [hdel_match x hx] at hts
      cases hts
    · rw [hdel_ne x (by simpa using hx)] at hts
      obtain ⟨l, hl, y, hy, hyx⟩ := hi.idxTop x ts hts T hT
      rw [hpat T]
      by_cases hc : T ∈ pats
      · have hyq : subEq y ⟨topic, handler, 0⟩ = false := by
          by_cases h2 : subEq y ⟨topic, handler, 0⟩
          · exfalso
            have hxsub : subEq x ⟨topic, handler, 0⟩ = true :=
              subEq_trans x y _ (subEq_symm y x hyx) h2
            rw [hxsub] at hx
            exact hx rfl
          · simpa using h2
        refine ⟨unsubNewVal s ⟨topic, handler, 0⟩ T, by rw [if_pos hc], ?_⟩
        refine ⟨y, ?_, hyx⟩
        unfold unsubNewVal
        rw [hl, sortDesc_mem]
        exact (List.mem_eraseP_of_neg (by simp [hyq])).mpr hy
      · exact ⟨l, by rw [if_neg hc]; exact hl, y, hy, hyx⟩

theorem inv_publish {s : BusState} (topic : String) (m : Msg) (hi : Inv s) :
    Inv (publish_c s topic m).1 := by
  unfold publish_c
  dsimp only
  match hg : dictGet (· == ·) s.patterns topic with
  | some subs => exact inv_of_eq s _ rfl rfl hi
  | none =>
    exact inv_of_eq (resolve_subscriptions s topic).1 _ rfl rfl
      (inv_resolve topic hi hg)

/-- The states reachable from a freshly constructed bus by the public
operations. -/
inductive Reachable : BusState → Prop
  | init (E : List Nat) (db : Bool) (ser : Option (Msg → List Nat))
      (tf : Option (List Nat)) : Reachable (initBus E db ser tf)
  | register_ok {s s' : BusState} {e : String} {h : Nat} :
      Reachable s → register s e h = .ok s' → Reachable s'
  | deregister_ok {s s' : BusState} {e : String} {h : Nat} :
      Reachable s → deregister s e h = .ok s' → Reachable s'
  | send_ok {s s' : BusState} {e : String} {m : Msg} {ev : List (Nat × Msg)} :
      Reachable s → send s e m = .ok (s', ev) → Reachable s'
  | request_ok {s s' : BusState} {e : String} {r : Request}
      {ev : List (Nat × Request)} :
      Reachable s → request s e r = .ok (s', ev) → Reachable s'
  | response_step {s : BusState} (r : Response) :
      Reachable s → Reachable (response s r).1
  | subscribe_ok {s s' : BusState} {t : String} {h : Nat} {p : Int} :
      Reachable s → subscribe s t h p = .ok s' → Reachable s'
  | unsubscribe_ok {s s' : BusState} {t : String} {h : Nat} :
      Reachable s → unsubscribe s t h = .ok s' → Reachable s'
  | publish_step {s : BusState} (t : String) (m : Msg) :
      Reachable s → Reachable (publish_c s t m).1

/-- The data-model invariant holds in every reachable state. -/
theorem inv_reachable {s : BusState} (h : Reachable s) : Inv s := by
  induction h with
  | init E db ser tf => exact inv_initBus E db ser tf
  | register_ok _ hr ih => exact inv_register hr ih
  | deregister_ok _ hr ih => exact inv_deregister hr ih
  | send_ok _ hr ih => exact inv_send hr ih
  | request_ok _ hr ih => exact inv_request hr ih
  | response_step r _ ih => exact inv_response r ih
  | subscribe_ok _ hr ih => exact inv_subscribe hr ih
  | unsubscribe_ok _ hr ih => exact inv_unsubscribe hr ih
  | publish_step t m _ ih => exact inv_publish t m ih

/-! ## Properties of the publish dispatch list -/

/-- In an invariant-respecting state, every publish dispatches its
handlers in priority-descending order. -/
theorem pubList_sorted {s : BusState} (hi : Inv s) (topic : String) :
    (pubList s topic).Pairwise (fun a b => b.priority ≤ a.priority) := by
  unfold pubList
  match hg : dictGet (· == ·) s.patterns topic with
  | some subs => exact hi.sorted topic subs hg
  | none => exact sortDesc_sorted _

/-- In an invariant-respecting state, each priority class of the
dispatch list is a subsequence of the subscription-index keys, i.e.
equal-priority handlers run in registration order. -/
theorem pubList_stable {s : BusState} (hi : Inv s) (topic : String) (p : Int) :
    List.Sublist
      ((pubList s topic).filter (fun x => decide (x.priority = p)))
      ((dictKeys s.subscriptions).filter (fun x => decide (x.priority = p))) := by
  unfold pubList
  match hg : dictGet (· == ·) s.patterns topic with
  | some subs => exact hi.stable topic subs hg p
  | none =>
    show List.Sublist (List.filter _ (sortDesc _)) _
    rw [filter_sortDesc]
    exact (List.filter_sublist _).filter _

theorem foldl_resolveStep_misc (topic : String) (ys : List Subscription) :
    ∀ st : BusState,
      (ys.foldl (resolveStep topic) st).has_backing = st.has_backing ∧
      (ys.foldl (resolveStep topic) st).serializer = st.serializer ∧
      (ys.foldl (resolveStep topic) st).publishable_types =
        st.publishable_types := by
  induction ys with
  | nil => intro st; exact ⟨rfl, rfl, rfl⟩
  | cons y ys ih =>
    intro st
    rw [List.foldl_cons]
    exact ih (resolveStep topic st y)

/-- The event list of `publish_c`: first one invocation per dispatched
subscription (in order), then the external emission when the sink, a
serializer and a publishable type line up. -/
theorem publish_c_spec (s : BusState) (topic : String) (m : Msg) :
    (publish_c s topic m).2 =
      (pubList s topic).map (fun sub => PubEvent.invoke sub.handler m) ++
      (if s.has_backing then
        match s.serializer with
        | none => []
        | some ser =>
          if m.ty ∈ s.publishable_types then [PubEvent.emit topic (ser m)]
          else []
      else []) := by
  unfold publish_c pubList
  dsimp only
  match hg : dictGet (· == ·) s.patterns topic with
  | some subs => rfl
  | none =>
    obtain ⟨hb, hser, hpub⟩ := foldl_resolveStep_misc topic
      (sortDesc ((dictKeys s.subscriptions).filter
        (fun sub => is_matching topic sub.topic)))
      { s with patterns := (dictSet (· == ·) s.patterns topic
          (sortDesc ((dictKeys s.subscriptions).filter
            (fun sub => is_matching topic sub.topic)))) }
    unfold resolve_subscriptions
    dsimp only
    rw [hb, hser, hpub]

/-! ## Concrete example states used by the claim theorems -/

/-- A freshly constructed bus with no sink, serializer or filter. -/
def emptyBus : BusState := initBus [] false none none

/-- Unwraps an `ok` result, falling back to `d` (used only on
constructions that do return `ok`). -/
def okOr (d : BusState) : Except String BusState → BusState
  | .ok s => s
  | .error _ => d

/-- Bus after `publish("ab")` has populated the resolution cache. -/
def c1s1 : BusState := (publish_c emptyBus "ab" ⟨0, 0⟩).1

/-- The same bus after `subscribe("a*", 7)`. -/
def c1s2 : BusState := okOr c1s1 (subscribe c1s1 "a*" 7 0)

/-- Bus with subscriber `(T, 1, 10)`. -/
def c3bus1 : BusState := okOr emptyBus (subscribe emptyBus "T" 1 10)

/-- Bus with subscribers `(T, 1, 10)`, `(T, 2, 5)`. -/
def c3bus2 : BusState := okOr emptyBus (subscribe c3bus1 "T" 2 5)

/-- Bus with subscribers `(T, 1, 10)`, `(T, 2, 5)`, `(T, 3, 10)` in
registration order. -/
def c3bus : BusState := okOr emptyBus (subscribe c3bus2 "T" 3 10)

/-- C1: after `subscribe("a*", h)` on a bus where the concrete topic
`"ab"` is already cached, `matches("ab", "a*")` is true, yet the cache
entry for `"ab"` stays empty instead of the priority-descending sort of
the matching indexed subscriptions, and a subsequent `publish("ab", m)`
invokes no handler.  The loop at source lines 460-466 calls
`is_matching(topic, pattern)` with the new subscription's wildcard topic
in the `topic` position and the cached concrete topic in the `pattern`
position, so a wildcard subscription never matches an already-cached
concrete topic. -/
theorem C1_subscribe_swapped_matching_breaks_cache :
    is_matching "ab" "a*" = true ∧
    subscribe c1s1 "a*" 7 0 = .ok c1s2 ∧
    dictGet (· == ·) c1s2.patterns "ab" = some [] ∧
    sortDesc ((dictKeys c1s2.subscriptions).filter
      (fun sub => is_matching "ab" sub.topic)) =
      [⟨"a*", 7, 0⟩] ∧
    (publish_c c1s2 "ab" ⟨1, 1⟩).2 = [] :=
  ⟨by decide, rfl, by decide, by decide, by decide⟩

/-- C2: the matcher agrees with the glob semantics (`?` one character,
`*` zero or more, other characters literally), the empty topic is
matched exactly by all-star patterns, and the concrete vectors of the
spec hold. -/
theorem C2_matcher_glob_semantics :
    (∀ topic pattern : String,
      is_matching topic pattern = true ↔ Glob pattern.data topic.data) ∧
    (∀ pattern : String,
      is_matching "" pattern = true ↔ pattern.data.all (· = '*') = true) ∧
    is_matching "a" "" = false ∧
    is_matching "" "" = true ∧
    is_matching "" "*" = true ∧
    is_matching "" "**" = true ∧
    is_matching "comp" "comp*" = true ∧
    is_matching "complete" "comp*" = true ∧
    is_matching "computer" "comp*" = true ∧
    is_matching "camp" "c?mp" = true ∧
    is_matching "comp" "c?mp" = true ∧
    is_matching "coop" "c??p" = true ∧
    is_matching "cmp" "c?mp" = false := by
  refine ⟨is_matching_iff_glob, ?_, by decide, by decide, by decide, by decide,
    by decide, by decide, by decide, by decide, by decide, by decide, by decide⟩
  intro pattern
  rw [is_matching_iff_glob]
  have h0 : ("" : String).data = [] := rfl
  rw [h0, glob_nil_topic_iff]

theorem c3bus_reachable : Reachable c3bus := by
  have h1 : subscribe emptyBus "T" 1 10 = .ok c3bus1 := rfl
  have h2 : subscribe c3bus1 "T" 2 5 = .ok c3bus2 := rfl
  have h3 : subscribe c3bus2 "T" 3 10 = .ok c3bus := rfl
  exact Reachable.subscribe_ok
    (Reachable.subscribe_ok
      (Reachable.subscribe_ok (Reachable.init [] false none none) h1) h2) h3

/-- C3: publish invokes exactly the handlers of the dispatch list in
order; in every reachable state the dispatch list is priority-descending
and its equal-priority classes are subsequences of the subscription
index (insertion = registration order); in the spec's example, handlers
1 and 3 (priority 10) run before 2 (priority 5), and 1 before 3. -/
theorem C3_publish_priority_order :
    (∀ (s : BusState) (T : String) (m : Msg),
      (publish_c s T m).2 =
        (pubList s T).map (fun sub => PubEvent.invoke sub.handler m) ++
        (if s.has_backing then
          match s.serializer with
          | none => []
          | some ser =>
            if m.ty ∈ s.publishable_types then [PubEvent.emit T (ser m)]
            else []
        else [])) ∧
    (∀ s : BusState, Reachable s → ∀ T : String,
      (pubList s T).Pairwise (fun a b => b.priority ≤ a.priority)) ∧
    (∀ s : BusState, Reachable s → ∀ (T : String) (p : Int),
      List.Sublist ((pubList s T).filter (fun x => decide (x.priority = p)))
        ((dictKeys s.subscriptions).filter
          (fun x => decide (x.priority = p)))) ∧
    (publish_c c3bus "T" ⟨0, 0⟩).2 =
      [PubEvent.invoke 1 ⟨0, 0⟩, PubEvent.invoke 3 ⟨0, 0⟩,
        PubEvent.invoke 2 ⟨0, 0⟩] := by
  refine ⟨publish_c_spec, ?_, ?_, by decide⟩
  · intro s hs T
    exact pubList_sorted (inv_reachable hs) T
  · intro s hs T p
    exact pubList_stable (inv_reachable hs) T p

theorem C3_publish_priority_order_witness :
    (pubList c3bus "T").Pairwise (fun a b => b.priority ≤ a.priority) ∧
    List.Sublist
      ((pubList c3bus "T").filter (fun x => decide (x.priority = (10 : Int))))
      ((dictKeys c3bus.subscriptions).filter
        (fun x => decide (x.priority = (10 : Int)))) :=
  ⟨C3_publish_priority_order.2.1 c3bus c3bus_reachable "T",
    C3_publish_priority_order.2.2.1 c3bus c3bus_reachable "T" 10⟩

theorem natEq_symm (a b : Nat) : (a == b) = true → (b == a) = true := by
  intro h
  rw [beq_iff_eq] at h ⊢
  exact h.symm

theorem natEq_trans (a b c : Nat) :
    (a == b) = true → (b == c) = true → (a == c) = true := by
  intro h1 h2
  rw [beq_iff_eq] at h1 h2 ⊢
  exact h1.trans h2

/-- Fresh bus with endpoint `"svc"` registered to handler `h`. -/
def svcBus (E : List Nat) (db : Bool) (ser : Option (Msg → List Nat))
    (tf : Option (List Nat)) (h : Nat) : BusState :=
  { initBus E db ser tf with endpoints := [("svc", h)] }

/-- The `svcBus` after one successful request with id `X`. -/
def svcBusReq (E : List Nat) (db : Bool) (ser : Option (Msg → List Nat))
    (tf : Option (List Nat)) (h X cb : Nat) : BusState :=
  { svcBus E db ser tf h with
      correlation_index := [(X, cb)], req_count := 1 }

/-- The `svcBusReq` after the matching response. -/
def svcBusRes (E : List Nat) (db : Bool) (ser : Option (Msg → List Nat))
    (tf : Option (List Nat)) (h : Nat) : BusState :=
  { svcBus E db ser tf h with
      correlation_index := [], req_count := 1, res_count := 1 }

/-- C4: on a fresh bus with endpoint `"svc"` registered, after
`request("svc", r)` with `r.id = X` the id is pending; after a matching
`response` it is no longer pending, the callback ran exactly once with
the response, and `req_count = res_count = 1`. -/
theorem C4_request_response_roundtrip :
    ∀ (E : List Nat) (db : Bool) (ser : Option (Msg → List Nat))
      (tf : Option (List Nat)) (h cb X rv : Nat),
    ∃ (s1 s2 s3 : BusState),
      register (initBus E db ser tf) "svc" h = .ok s1 ∧
      request s1 "svc" ⟨X, cb⟩ = .ok (s2, [(h, ⟨X, cb⟩)]) ∧
      is_pending_request s2 X = true ∧
      response s2 ⟨X, rv⟩ = (s3, [(cb, ⟨X, rv⟩)]) ∧
      is_pending_request s3 X = false ∧
      s3.req_count = 1 ∧ s3.res_count = 1 := by
  intro E db ser tf h cb X rv
  refine ⟨svcBus E db ser tf h, svcBusReq E db ser tf h X cb,
    svcBusRes E db ser tf h, rfl, rfl, ?_, ?_, rfl, rfl, rfl⟩
  · simp [svcBusReq, is_pending_request, dictMem, dictGet_cons]
  · simp [svcBusReq, svcBusRes, svcBus, response, response_pop, dictGet_cons,
      dictDel, initBus]

/-- C5: with a sink and serializer configured, a message whose type is
filtered out of `publishable_types` is still delivered to the in-process
handlers but not emitted; a publishable type is emitted exactly once,
after all handler invocations. -/
theorem C5_external_publish_filter :
    (∀ (E : List Nat) (db : Bool) (ser : Option (Msg → List Nat))
      (tf : List Nat),
      (initBus E db ser (some tf)).publishable_types =
        E.filter (fun o => ¬ o ∈ tf)) ∧
    (∀ (s : BusState) (ser : Msg → List Nat) (T : String) (m : Msg),
      s.has_backing = true → s.serializer = some ser →
      ¬ m.ty ∈ s.publishable_types →
      (publish_c s T m).2 =
        (pubList s T).map (fun sub => PubEvent.invoke sub.handler m)) ∧
    (∀ (s : BusState) (ser : Msg → List Nat) (T : String) (m : Msg),
      s.has_backing = true → s.serializer = some ser →
      m.ty ∈ s.publishable_types →
      (publish_c s T m).2 =
        (pubList s T).map (fun sub => PubEvent.invoke sub.handler m) ++
          [PubEvent.emit T (ser m)]) := by
  refine ⟨fun E db ser tf => rfl, ?_, ?_⟩
  · intro s ser T m hb hs hm
    rw [publish_c_spec, hb, hs]
    simp [hm]
  · intro s ser T m hb hs hm
    rw [publish_c_spec, hb, hs]
    simp [hm]

/-- Bus with one filtered publishable type. -/
def c5busA : BusState := initBus [5] true (some (fun m => [m.val])) (some [5])

/-- Bus with a filtered type 5 and an unfiltered type 6. -/
def c5busB : BusState :=
  initBus [5, 6] true (some (fun m => [m.val])) (some [5])

theorem C5_external_publish_filter_witness :
    (publish_c c5busA "t" ⟨5, 4⟩).2 = [] ∧
    (publish_c c5busB "t" ⟨6, 3⟩).2 = [PubEvent.emit "t" [3]] := by
  constructor
  · have h := C5_external_publish_filter.2.1 c5busA (fun m => [m.val]) "t"
      ⟨5, 4⟩ rfl rfl (by decide)
    exact h.trans (by decide)
  · have h := C5_external_publish_filter.2.2 c5busB (fun m => [m.val]) "t"
      ⟨6, 3⟩ rfl rfl (by decide)
    exact h.trans (by decide)

/-- C6: a second request with a live id performs no insert, dispatches
nothing and changes no counter (`req_count` stays 1), and a subsequent
response invokes only the first request's callback. -/
theorem C6_duplicate_request_dropped :
    (∀ (s : BusState) (e : String) (r : Request),
      is_pending_request s r.id = true → request s e r = .ok (s, [])) ∧
    (∀ (E : List Nat) (db : Bool) (ser : Option (Msg → List Nat))
      (tf : Option (List Nat)) (h cb1 cb2 X rv : Nat),
      ∃ (s1 s2 : BusState),
        register (initBus E db ser tf) "svc" h = .ok s1 ∧
        request s1 "svc" ⟨X, cb1⟩ = .ok (s2, [(h, ⟨X, cb1⟩)]) ∧
        request s2 "svc" ⟨X, cb2⟩ = .ok (s2, []) ∧
        s2.req_count = 1 ∧
        (response s2 ⟨X, rv⟩).2 = [(cb1, ⟨X, rv⟩)]) := by
  constructor
  · intro s e r hp
    unfold is_pending_request at hp
    unfold request
    rw [if_pos hp]
  · intro E db ser tf h cb1 cb2 X rv
    refine ⟨svcBus E db ser tf h, svcBusReq E db ser tf h X cb1,
      rfl, rfl, ?_, rfl, ?_⟩
    · unfold request
      rw [if_pos (by simp [svcBusReq, dictMem, dictGet_cons])]
    · simp [svcBusReq, response, response_pop, dictGet_cons, dictDel]

theorem C6_duplicate_request_dropped_witness :
    request { emptyBus with correlation_index := [(5, 9)] } "e" ⟨5, 7⟩ =
      .ok ({ emptyBus with correlation_index := [(5, 9)] }, []) :=
  C6_duplicate_request_dropped.1 { emptyBus with correlation_index := [(5, 9)] }
    "e" ⟨5, 7⟩ (by decide)

/-- C7: a request whose id is fresh but whose endpoint is unregistered
returns without raising and without incrementing `req_count`, yet the
correlation entry has already been inserted, so the id is pending. -/
theorem C7_missing_endpoint_leaks_entry :
    ∀ (s : BusState) (e : String) (r : Request),
      is_pending_request s r.id = false →
      dictGet (· == ·) s.endpoints e = none →
      request s e r = .ok ({ s with correlation_index :=
          (dictSet (· == ·) s.correlation_index r.id r.callback) }, []) ∧
      ({ s with correlation_index :=
          (dictSet (· == ·) s.correlation_index r.id r.callback)
        : BusState }).req_count = s.req_count ∧
      is_pending_request { s with correlation_index :=
          (dictSet (· == ·) s.correlation_index r.id r.callback) } r.id =
        true := by
  intro s e r hp hg
  unfold is_pending_request at hp
  refine ⟨?_, rfl, ?_⟩
  · unfold request
    rw [if_neg (by simp [hp])]
    dsimp only
    rw [hg]
  · unfold is_pending_request dictMem
    dsimp only
    rw [dictGet_set_self _ _ _ _ (by simp)]
    rfl

theorem C7_missing_endpoint_leaks_entry_witness :
    request emptyBus "nope" ⟨1, 2⟩ =
      .ok ({ emptyBus with correlation_index := [(1, 2)] }, []) ∧
    is_pending_request { emptyBus with correlation_index := [(1, 2)] } 1 =
      true := by
  have h := C7_missing_endpoint_leaks_entry emptyBus "nope" ⟨1, 2⟩ rfl rfl
  exact ⟨h.1, h.2.2⟩

/-- C8: `send` to an unknown endpoint returns without raising, invokes
nothing and leaves the state (hence `sent_count`) unchanged; with a
registered handler it invokes it synchronously and increments
`sent_count` by one. -/
theorem C8_send_endpoint_dispatch :
    ∀ (s : BusState) (e : String) (m : Msg),
      (dictGet (· == ·) s.endpoints e = none → send s e m = .ok (s, [])) ∧
      (∀ h : Nat, dictGet (· == ·) s.endpoints e = some h →
        send s e m =
          .ok ({ s with sent_count := s.sent_count + 1 }, [(h, m)])) := by
  intro s e m
  constructor
  · intro hg
    unfold send
    rw [hg]
  · intro h hg
    unfold send
    rw [hg]

theorem C8_send_endpoint_dispatch_witness :
    send emptyBus "nope" ⟨0, 0⟩ = .ok (emptyBus, []) ∧
    send { emptyBus with endpoints := [("svc", 9)] } "svc" ⟨0, 0⟩ =
      .ok ({ { emptyBus with endpoints := [("svc", 9)] : BusState } with
        sent_count := ({ emptyBus with endpoints := [("svc", 9)]
          : BusState }).sent_count + 1 }, [(9, ⟨0, 0⟩)]) := by
  refine ⟨(C8_send_endpoint_dispatch emptyBus "nope" ⟨0, 0⟩).1 rfl, ?_⟩
  exact (C8_send_endpoint_dispatch { emptyBus with endpoints := [("svc", 9)] }
    "svc" ⟨0, 0⟩).2 9 (by decide)

/-- C9 counterexample: `send` with an empty endpoint string does not
raise; it only checks `not_none` (source line 328) and returns normally
through the unknown-endpoint path, refuting the claim that every entry
point (in particular `send` and `publish`) raises on an empty string. -/
theorem C9_send_empty_endpoint_does_not_raise :
    send emptyBus "" ⟨0, 0⟩ = .ok (emptyBus, []) := rfl

/-- C9 (amended): `register`, `deregister`, `subscribe` and
`unsubscribe` validate strings (and `subscribe` the priority) and raise
on an empty string or negative priority, while `send` and `request`
(and total `publish`/`response`) only check non-null arguments and
never raise. -/
theorem C9_validation_raises_only_on_registry_ops :
    (∀ (s : BusState) (h : Nat) (p : Int),
      subscribe s "" h p = .error "invalid topic") ∧
    (∀ (s : BusState) (t : String) (h : Nat) (p : Int), ¬ t = "" → p < 0 →
      subscribe s t h p = .error "negative priority") ∧
    (∀ (s : BusState) (h : Nat), register s "" h = .error "invalid endpoint") ∧
    (∀ (s : BusState) (h : Nat),
      deregister s "" h = .error "invalid endpoint") ∧
    (∀ (s : BusState) (h : Nat), unsubscribe s "" h = .error "invalid topic") ∧
    (∀ (s : BusState) (e : String) (m : Msg), ∃ out, send s e m = .ok out) ∧
    (∀ (s : BusState) (e : String) (r : Request),
      ∃ out, request s e r = .ok out) := by
  refine ⟨fun s h p => rfl, ?_, fun s h => rfl, fun s h => rfl,
    fun s h => rfl, ?_, ?_⟩
  · intro s t h p ht hp
    unfold subscribe
    rw [if_neg (by simp [validString, ht]),
      if_pos (by simp [notNegativeInt]; omega)]
  · intro s e m
    unfold send
    match hg : dictGet (· == ·) s.endpoints e with
    | none => exact ⟨(s, []), rfl⟩
    | some h => exact ⟨_, rfl⟩
  · intro s e r
    unfold request
    split
    · exact ⟨(s, []), rfl⟩
    · dsimp only
      split
      · exact ⟨_, rfl⟩
      · exact ⟨_, rfl⟩

theorem C9_validation_raises_witness :
    subscribe emptyBus "t" 1 (-1) = .error "negative priority" :=
  C9_validation_raises_only_on_registry_ops.2.1 emptyBus "t" 1 (-1)
    (by decide) (by decide)

/-- C10: `response` pops the correlation entry before invoking the
callback: at the point the callback is about to run the entry is gone
and `res_count` is unchanged, and a further `response` for the same id
(as after a callback exception) dispatches nothing. -/
theorem C10_response_pops_before_invoking :
    ∀ (s : BusState) (resp : Response) (cb : Nat),
      dictGet (· == ·) s.correlation_index resp.correlation_id = some cb →
      (s.correlation_index.map Prod.fst).Pairwise
        (fun a b => (a == b) = false) →
      response_pop s resp = ({ s with correlation_index :=
          (dictDel (· == ·) s.correlation_index resp.correlation_id) },
        some cb) ∧
      is_pending_request (response_pop s resp).1 resp.correlation_id =
        false ∧
      (response_pop s resp).1.res_count = s.res_count ∧
      response s resp = ({ (response_pop s resp).1 with
          res_count := (response_pop s resp).1.res_count + 1 },
        [(cb, resp)]) ∧
      (response (response_pop s resp).1 resp).2 = [] := by
  intro s resp cb hg hnd
  have hpop : response_pop s resp = ({ s with correlation_index :=
      (dictDel (· == ·) s.correlation_index resp.correlation_id) },
      some cb) := by
    unfold response_pop
    rw [hg]
  have hdel : dictGet (· == ·) (dictDel (· == ·) s.correlation_index
      resp.correlation_id) resp.correlation_id = none :=
    dictGet_del_self _ _ _ natEq_symm natEq_trans hnd
  refine ⟨hpop, ?_, ?_, ?_, ?_⟩
  · rw [hpop]
    unfold is_pending_request dictMem
    dsimp only
    rw [hdel]
    rfl
  · rw [hpop]
  · unfold response
    rw [hpop]
  · rw [hpop]
    unfold response response_pop
    dsimp only
    rw [hdel]

theorem C10_response_pops_before_invoking_witness :
    response_pop { emptyBus with correlation_index := [(5, 9)] } ⟨5, 0⟩ =
      ({ emptyBus with correlation_index := [] }, some 9) ∧
    (response (response_pop { emptyBus with correlation_index := [(5, 9)] }
      ⟨5, 0⟩).1 ⟨5, 0⟩).2 = [] := by
  have h := C10_response_pops_before_invoking
    { emptyBus with correlation_index := [(5, 9)] } ⟨5, 0⟩ 9 (by decide)
    (by decide)
  exact ⟨h.1, h.2.2.2.2⟩

end Msgbus
